import Mathlib

/-
  Verification of the Mongoose edge-separator core against its source.

  Shallow embedding conventions:
  * C `Int` indices become `Nat` (all indices in the verified code paths are
    nonnegative); `-1` sentinels become `Int` where the source uses them as
    flags (`graph->singleton`, HEM's `heaviestNeighbor`).
  * C `double` / `Weight` becomes `ℚ`: the exact-arithmetic semantics of the
    numeric code (the spec states the integer/exact reading of each law).
  * CSR arrays become `List`s accessed with `getD` (out-of-range reads yield
    the default, mirroring that verified paths never index out of range).
  * In-place mutation of `graph->...` fields becomes functional update of a
    `Graph` record; loops become `List.foldl` over `List.range n`.
-/

set_option maxHeartbeats 1600000

namespace MongooseSpec

/-! ## Options (Mongoose_Options.cpp) -/

/-- Matching strategy enumeration, as dispatched in `match` (Mongoose_Matching.cpp). -/
inductive MatchingStrategy where
  | Random
  | HEM
  | HEMPA
  | HEMDavisPA
deriving DecidableEq

/-- Modelled from the spec: the guess-cut enumeration. Its declaration
(`Mongoose_Internal.hpp`) is missing from the sources; the values observed in
the source are `Pseudoperipheral_Fast` (`Options::Create`) and `GuessQP`
(demo); the spec lists QP, Random and NaturalOrder strategies. -/
inductive GuessCutType where
  | GuessQP
  | GuessRandom
  | GuessNaturalOrder
  | Pseudoperipheral_Fast
deriving DecidableEq

/-- The `Options` struct: the fields assigned by `Options::Create`. -/
structure Options where
  randomSeed : Nat
  coarsenLimit : Nat
  matchingStrategy : MatchingStrategy
  doCommunityMatching : Bool
  davisBrotherlyThreshold : ℚ
  guessCutType : GuessCutType
  guessSearchDepth : Nat
  numDances : Nat
  useFM : Bool
  fmSearchDepth : Nat
  fmConsiderCount : Nat
  fmMaxNumRefinements : Nat
  useQPGradProj : Bool
  useQPBallOpt : Bool
  gradprojTol : ℚ
  gradprojIterationLimit : Nat
  targetSplit : ℚ
  tolerance : ℚ
  doExpensiveChecks : Bool
deriving DecidableEq

/-- `Options::Create` (Mongoose_Options.cpp): the default option values. -/
def Options.Create : Options :=
  { randomSeed := 0
  , coarsenLimit := 256
  , matchingStrategy := MatchingStrategy.HEMDavisPA
  , doCommunityMatching := false
  , davisBrotherlyThreshold := 2
  , guessCutType := GuessCutType.Pseudoperipheral_Fast
  , guessSearchDepth := 10
  , numDances := 1
  , useFM := true
  , fmSearchDepth := 50
  , fmConsiderCount := 3
  , fmMaxNumRefinements := 20
  , useQPGradProj := true
  , useQPBallOpt := true
  , gradprojTol := 1/1000
  , gradprojIterationLimit := 50
  , targetSplit := 1/2
  , tolerance := 1/100
  , doExpensiveChecks := false }

/-! ## The graph store -/

/-- The `Graph` struct: CSR adjacency (`p`, `i`, `x`), vertex weights `w`,
total weight `W`, edge-weight sums `X`, `H`, per-vertex gains, and the
matching bookkeeping (`matching`, `matchmap`, `invmatchmap`, `cn`,
`singleton`). `matching.getD a 0 = b+1` encodes that `a` is matched to `b`;
`0` encodes unmatched. -/
structure Graph where
  n : Nat
  p : List Nat
  i : List Nat
  x : List ℚ
  w : List ℚ
  W : ℚ
  X : ℚ
  H : ℚ
  vertexGains : List ℚ
  matching : List Nat
  matchmap : List Nat
  invmatchmap : List Nat
  cn : Nat
  singleton : Int
deriving DecidableEq

/-- The edge-slot positions of the CSR column of vertex `v`:
`Gp[v] .. Gp[v+1]-1`. -/
def slots (G : Graph) (v : Nat) : List Nat :=
  List.range' (G.p.getD v 0) (G.p.getD (v + 1) 0 - G.p.getD v 0)

/-- `degree = Gp[k+1] - Gp[k]` as computed in `matching_Cleanup` and in the
post-coarsening expensive check. -/
def degree (G : Graph) (k : Nat) : Nat :=
  G.p.getD (k + 1) 0 - G.p.getD k 0

/-! ## Matching primitives

The `Graph` member functions `isMatched`, `getMatch`, `createMatch` are
called by Mongoose_Matching.cpp but their definitions (Mongoose_Graph.cpp /
Mongoose_Internal.hpp) are not among the sources. -/

/-- Modelled from the spec: `Graph::isMatched(k)` — `matching[k]` is nonzero
("`matching[a]` is `b+1` if a and b are matched ...; never 0 when matched"). -/
def isMatched (m : List Nat) (k : Nat) : Bool :=
  m.getD k 0 ≠ 0

/-- Modelled from the spec: `MONGOOSE_GETMATCH` / `Graph::getMatch(k)` —
the partner `b` encoded by `matching[k] = b+1` (meaningful on matched `k`). -/
def getMatch (m : List Nat) (k : Nat) : Nat :=
  m.getD k 0 - 1

/-- Modelled from the spec: `Graph::createMatch(a, b)` — record
`matching[a] = b+1` and `matching[b] = a+1` (self-match when `a = b`). -/
def createMatch (m : List Nat) (a b : Nat) : List Nat :=
  (m.set b (a + 1)).set a (b + 1)

/-! ## matching_Random (Mongoose_Matching.cpp) -/

/-- One iteration of the `matching_Random` vertex loop: if `k` is unmatched,
scan its neighbors in storage order and match `k` with the first unmatched
one (the loop exits via the `unmatched` flag after the first match). -/
def matchStepRandom (G : Graph) (m : List Nat) (k : Nat) : List Nat :=
  if isMatched m k then m
  else
    match ((slots G k).map (fun q => G.i.getD q 0)).find?
            (fun nb => ¬ isMatched m nb) with
    | some nb => createMatch m k nb
    | none => m

/-- `matching_Random(graph, options)`: the vertex loop `k = 0..n-1`.
The `options` argument is unused by the source (`(void)options`). -/
def matching_Random (graph : Graph) (options : Options) : Graph :=
  { graph with
    matching := (List.range graph.n).foldl (matchStepRandom graph) graph.matching }

/-! ## matching_HEM (Mongoose_Matching.cpp) -/

/-- One slot of the `matching_HEM` neighbor scan: skip matched neighbors,
keep the heaviest unmatched one seen so far (strict improvement, so ties
keep the first occurrence). -/
def hemStep (G : Graph) (m : List Nat) (acc : Int × ℚ) (q : Nat) : Int × ℚ :=
  if isMatched m (G.i.getD q 0) then acc
  else if acc.2 < G.x.getD q 0 then (Int.ofNat (G.i.getD q 0), G.x.getD q 0)
  else acc

/-- The neighbor scan of `matching_HEM`: track the unmatched neighbor of
maximum edge weight; `(-1, -1)` is the initial (sentinel, weight) pair. -/
def hemScan (G : Graph) (m : List Nat) (k : Nat) : Int × ℚ :=
  (slots G k).foldl (hemStep G m) (-1, -1)

/-- One iteration of the `matching_HEM` vertex loop. -/
def matchStepHEM (G : Graph) (m : List Nat) (k : Nat) : List Nat :=
  if isMatched m k then m
  else if (hemScan G m k).1 = -1 then m
  else createMatch m k (hemScan G m k).1.toNat

/-- `matching_HEM(graph, options)`: the vertex loop `k = 0..n-1`.
The `options` argument is unused by the source. -/
def matching_HEM (graph : Graph) (options : Options) : Graph :=
  { graph with
    matching := (List.range graph.n).foldl (matchStepHEM graph) graph.matching }

/-! ## matching_Cleanup (Mongoose_Matching.cpp) -/

/-- The loop-carried state of `matching_Cleanup`: the matching array and the
held `graph->singleton` (`-1` when no isolated vertex is being held). -/
structure CleanupState where
  m : List Nat
  singleton : Int
deriving DecidableEq

/-- One iteration of the `matching_Cleanup` vertex loop: an unmatched vertex
of degree 0 is held in `singleton` or paired with the held singleton; an
unmatched vertex of nonzero degree becomes an orphan self-match. -/
def cleanupStep (G : Graph) (st : CleanupState) (k : Nat) : CleanupState :=
  if isMatched st.m k then st
  else if degree G k = 0 then
    if st.singleton = -1 then { st with singleton := Int.ofNat k }
    else { m := createMatch st.m k st.singleton.toNat, singleton := -1 }
  else { st with m := createMatch st.m k k }

/-- `matching_Cleanup(graph, options)`: the vertex loop followed by the
leftover-singleton self-match. -/
def matching_Cleanup (graph : Graph) (options : Options) : Graph :=
  let st := (List.range graph.n).foldl (cleanupStep graph)
              { m := graph.matching, singleton := graph.singleton }
  if st.singleton ≠ -1 then
    { graph with
      matching := createMatch st.m st.singleton.toNat st.singleton.toNat
      singleton := st.singleton }
  else
    { graph with matching := st.m, singleton := st.singleton }

end MongooseSpec
namespace MongooseSpec

/-! ## Well-formedness predicates -/

/-- The CSR neighbor ids reachable from vertices `< n` are themselves `< n`. -/
def NeighborsInRange (G : Graph) : Prop :=
  ∀ v < G.n, ∀ q ∈ slots G v, G.i.getD q 0 < G.n

/-- All reachable edge weights are strictly positive (spec §3: "weights
strictly positive"). -/
def PositiveEdgeWeights (G : Graph) : Prop :=
  ∀ v < G.n, ∀ q ∈ slots G v, 0 < G.x.getD q 0

instance (G : Graph) : Decidable (NeighborsInRange G) := by
  unfold NeighborsInRange; infer_instance

instance (G : Graph) : Decidable (PositiveEdgeWeights G) := by
  unfold PositiveEdgeWeights; infer_instance

/-- The edge weight stored from `u` to `v`: the sum of `Gx[q]` over the slots
of column `u` whose neighbor id is `v` (a CSR column may in principle carry
several entries for the same neighbor; for a strict CSR there is at most one). -/
def adjW (G : Graph) (u v : Nat) : ℚ :=
  (((slots G u).filter (fun q => G.i.getD q 0 = v)).map (fun q => G.x.getD q 0)).sum

/-- Stored symmetry (spec §3: every edge `(i,j)` has a mirror `(j,i)` with
equal weight). -/
def SymmetricG (G : Graph) : Prop :=
  ∀ u < G.n, ∀ v < G.n, adjW G u v = adjW G v u

instance (G : Graph) : Decidable (SymmetricG G) := by
  unfold SymmetricG; infer_instance

/-- Connectivity, in cut form: every nonempty proper subset of the vertex set
has an edge leaving it. -/
def ConnectedG (G : Graph) : Prop :=
  ∀ S ∈ (Finset.range G.n).powerset, S.Nonempty → S ≠ Finset.range G.n →
    ∃ u ∈ S, ∃ q ∈ slots G u, G.i.getD q 0 ∉ S

instance (G : Graph) : Decidable (ConnectedG G) := by
  unfold ConnectedG; infer_instance

/-! ## Coarsening (Mongoose_Coarsening.cpp) -/

/-- The coarse target of edge slot `q`: `matchmap[Gi[q]]`. -/
def colTarget (G : Graph) (q : Nat) : Nat :=
  G.matchmap.getD (G.i.getD q 0) 0

/-- The 1–3 fine vertices represented by coarse vertex `k`, recovered exactly
as `coarsen` loads `v[3]`: `v0 = invmatchmap[k]`, `v1 = GETMATCH(v0)` (dropped
when equal to `v0`), `v2 = GETMATCH(v1)` (dropped when equal to `v0`). -/
def fines (G : Graph) (k : Nat) : List Nat :=
  let v0 := G.invmatchmap.getD k 0
  let v1 := getMatch G.matching v0
  if v1 = v0 then [v0]
  else
    let v2 := getMatch G.matching v1
    if v2 = v0 then [v0, v1] else [v0, v1, v2]

/-- The fine edge slots contributing to coarse column `k`, in traversal
order: for each fine vertex of the supernode, its CSR slots in storage order. -/
def colSlots (G : Graph) (k : Nat) : List Nat :=
  (fines G k).flatMap (slots G)

/-- The coarse-column scatter: the hashtable lookup `htable[toCoarsened] < ps`
makes the first occurrence of a target in the column append a new entry
(`Ci[munch] = toCoarsened; Cx[munch] = edgeWeight`) and every later occurrence
accumulate into the stored entry (`Cx[cp] += edgeWeight`). On the ordered
association list of the column this is exactly `accum`. -/
def accum : List (Nat × ℚ) → Nat → ℚ → List (Nat × ℚ)
  | [], c, wt => [(c, wt)]
  | (c', w') :: rest, c, wt =>
      if c' = c then (c', w' + wt) :: rest else (c', w') :: accum rest c wt

/-- One fine slot of the column scatter: drop the self-edge
(`toCoarsened == k`, `continue`), otherwise scatter/accumulate. -/
def colStep (G : Graph) (k : Nat) (col : List (Nat × ℚ)) (q : Nat) :
    List (Nat × ℚ) :=
  if colTarget G q = k then col
  else accum col (colTarget G q) (G.x.getD q 0)

/-- Column `k` of the coarse graph: scan the fine slots of the supernode,
drop self-edges, scatter/accumulate the rest. -/
def coarsenColumn (G : Graph) (k : Nat) : List (Nat × ℚ) :=
  (colSlots G k).foldl (colStep G k) []

/-- `nodeWeight` accumulated for coarse vertex `k`: `Σ Gw[fine]`. -/
def nodeWeightC (G : Graph) (k : Nat) : ℚ :=
  ((fines G k).map (fun v => G.w.getD v 0)).sum

/-- `sumEdgeWeights` accumulated for coarse column `k`: the sum of `Gx[q]`
over the non-self slots of the supernode. -/
def sumEdgeWeightsC (G : Graph) (k : Nat) : ℚ :=
  (((colSlots G k).filter (fun q => colTarget G q ≠ k)).map
    (fun q => G.x.getD q 0)).sum

/-- The total weight stored under key `c` in an association-list column
(the specification value of the hashtable scatter). -/
def assocSum (col : List (Nat × ℚ)) (c : Nat) : ℚ :=
  ((col.filter (fun pr => pr.1 = c)).map Prod.snd).sum

/-- `coarsen(G, O)` (Mongoose_Coarsening.cpp): the coarse graph `C`.
`C.p[k]` is the running `munch` at the start of column `k`; `C.i`/`C.x` are
the concatenated columns; `C.w[k]` the accumulated node weight; `C.X` the
accumulated `sumEdgeWeights` and `C.H = 2 X`; `gains[k] = -sumEdgeWeights`.
`C.W` is carried over from `G` (modelled from the spec: `Graph::Create(G)` is
not among the sources; spec §3: "W | sum of vertex weights; invariant across
coarsening"). -/
def coarsen (G : Graph) (O : Options) : Graph :=
  { n := G.cn
  , p := (List.range (G.cn + 1)).map
      (fun k => (((List.range k).map (fun j => (coarsenColumn G j).length))).sum)
  , i := (List.range G.cn).flatMap (fun k => (coarsenColumn G k).map Prod.fst)
  , x := (List.range G.cn).flatMap (fun k => (coarsenColumn G k).map Prod.snd)
  , w := (List.range G.cn).map (nodeWeightC G)
  , W := G.W
  , X := ((List.range G.cn).map (sumEdgeWeightsC G)).sum
  , H := 2 * ((List.range G.cn).map (sumEdgeWeightsC G)).sum
  , vertexGains := (List.range G.cn).map (fun k => -(sumEdgeWeightsC G k))
  , matching := []
  , matchmap := []
  , invmatchmap := []
  , cn := 0
  , singleton := -1 }

/-- The fine vertices mapped to coarse vertex `k` by `matchmap`. -/
def fiber (G : Graph) (k : Nat) : Finset Nat :=
  (Finset.range G.n).filter (fun v => G.matchmap.getD v 0 = k)

/-- A completed matching, as `coarsen` requires it: the bookkeeping arrays
have their advertised lengths, `matchmap` maps into `[0, cn)`, and for every
coarse vertex `k` the 1–3 vertices recovered through
`invmatchmap`/`GETMATCH` are exactly the `matchmap`-fiber of `k`, without
repetition. -/
def ValidMatching (G : Graph) : Prop :=
  G.matchmap.length = G.n ∧ G.invmatchmap.length = G.cn ∧
  G.matching.length = G.n ∧
  (∀ v < G.n, G.matchmap.getD v 0 < G.cn) ∧
  (∀ k < G.cn, (fines G k).Nodup ∧ (∀ v ∈ fines G k, v < G.n) ∧
    (∀ v < G.n, (v ∈ fines G k ↔ G.matchmap.getD v 0 = k)))

instance (G : Graph) : Decidable (ValidMatching G) := by
  unfold ValidMatching; infer_instance

/-! ## Matching invariants (spec §4.1) -/

/-- A partial matching is valid when every matched vertex lies on a
`getMatch`-cycle of length 1, 2 or 3 through matched in-range vertices. -/
def ValidPartialMatching (n : Nat) (m : List Nat) : Prop :=
  ∀ k < n, m.getD k 0 ≠ 0 →
    getMatch m k < n ∧ m.getD (getMatch m k) 0 ≠ 0 ∧
    (getMatch m k = k ∨ getMatch m (getMatch m k) = k ∨
      getMatch m (getMatch m (getMatch m k)) = k)

instance (n : Nat) (m : List Nat) : Decidable (ValidPartialMatching n m) := by
  unfold ValidPartialMatching; infer_instance

/-- A total matching: every vertex is matched and lies on a `getMatch`-cycle
of length 1, 2 or 3 (its supernode). -/
def ValidTotalMatching (n : Nat) (m : List Nat) : Prop :=
  ∀ k < n, m.getD k 0 ≠ 0 ∧ getMatch m k < n ∧
    (getMatch m k = k ∨ getMatch m (getMatch m k) = k ∨
      getMatch m (getMatch m (getMatch m k)) = k)

instance (n : Nat) (m : List Nat) : Decidable (ValidTotalMatching n m) := by
  unfold ValidTotalMatching; infer_instance

/-- The loop invariant of the `matching_Cleanup` vertex loop after the
first `j` iterations, relative to the pre-cleanup matching `G.matching`:
pre-matched entries are untouched, unprocessed unmatched vertices are still
unmatched, the held singleton (if any) is a processed unmatched isolated
vertex, processed unmatched vertices of nonzero degree are orphan
self-matches, processed unmatched isolated vertices are held or paired with
another unmatched isolated vertex, every processed vertex is matched or
held, and the matching stays a valid partial matching. -/
structure CleanupInv (G : Graph) (j : Nat) (st : CleanupState) : Prop where
  len : st.m.length = G.n
  keep : ∀ v, G.matching.getD v 0 ≠ 0 → st.m.getD v 0 = G.matching.getD v 0
  untouched : ∀ v, j ≤ v → G.matching.getD v 0 = 0 → st.m.getD v 0 = 0
  sing : st.singleton = -1 ∨
    ∃ s, s < j ∧ s < G.n ∧ st.singleton = Int.ofNat s ∧
      G.matching.getD s 0 = 0 ∧ degree G s = 0 ∧ st.m.getD s 0 = 0
  orphanDone : ∀ k, k < j → G.matching.getD k 0 = 0 → degree G k ≠ 0 →
    st.m.getD k 0 = k + 1
  isoDone : ∀ k, k < j → G.matching.getD k 0 = 0 → degree G k = 0 →
    (st.singleton = Int.ofNat k ∧ st.m.getD k 0 = 0) ∨
    (∃ v, v < G.n ∧ v ≠ k ∧ G.matching.getD v 0 = 0 ∧ degree G v = 0 ∧
      st.m.getD k 0 = v + 1 ∧ st.m.getD v 0 = k + 1)
  covered : ∀ k, k < j → st.m.getD k 0 ≠ 0 ∨ st.singleton = Int.ofNat k
  valid : ValidPartialMatching G.n st.m

/-! ## QPLinks (Mongoose_Options.cpp, second translation unit) -/

/-- The fields of `QPDelta` read by `QPLinks`: the iterate `x`, the diagonal
`D`, and the constraint bounds `lo`, `hi`. -/
structure QPDelta where
  x : List ℚ
  D : List ℚ
  lo : ℚ
  hi : ℚ
deriving DecidableEq

/-- The state carried by the second `QPLinks` loop: the gradient under
construction, the running `s = Σ a[k]·x[k]`, the `FreeSet_status` array, and
the `FreeSet_list` built so far (its length is the running `nFreeSet`). -/
structure QPLinksState where
  grad : List ℚ
  s : ℚ
  status : List Int
  freeList : List Nat
deriving DecidableEq

/-- The inner scatter of `QPLinks`: `grad[Ei[p]] += r * Ex[p]` over the slots
of column `k`, with `r = 0.5 - x[k]`. -/
def qpScatter (G : Graph) (r : ℚ) (k : Nat) (grad : List ℚ) : List ℚ :=
  (slots G k).foldl
    (fun g q => g.set (G.i.getD q 0) (g.getD (G.i.getD q 0) 0 + r * G.x.getD q 0))
    grad

/-- The state update of one iteration of the second `QPLinks` loop (the
non-failing path): accumulate `s += a[k]*x[k]`, scatter the gradient
coupling of column `k`, and bucket `k` into `FreeSet_status` (appending free
vertices to `FreeSet_list`). -/
def qpLinksStepOk (G : Graph) (QP : QPDelta) (st : QPLinksState) (k : Nat) :
    QPLinksState :=
  { grad := qpScatter G (1/2 - QP.x.getD k 0) k st.grad
  , s := st.s + G.w.getD k 0 * QP.x.getD k 0
  , status := st.status.set k
      (if QP.x.getD k 0 ≥ 1 then 1 else if QP.x.getD k 0 ≤ 0 then -1 else 0)
  , freeList := if QP.x.getD k 0 ≥ 1 then st.freeList
                else if QP.x.getD k 0 ≤ 0 then st.freeList
                else st.freeList ++ [k] }

/-- One iteration of the second `QPLinks` loop: reject `x[k] ∉ [0,1]`
(`return false`), otherwise perform the state update. -/
def qpLinksStep (G : Graph) (QP : QPDelta) (st : QPLinksState) (k : Nat) :
    Option QPLinksState :=
  if QP.x.getD k 0 < 0 ∨ QP.x.getD k 0 > 1 then none
  else some (qpLinksStepOk G QP st k)

/-- The outputs of a successful `QPLinks` call. -/
structure QPLinksResult where
  grad : List ℚ
  FreeSet_status : List Int
  FreeSet_list : List Nat
  nFreeSet : Nat
  b : ℚ
  ib : Int
deriving DecidableEq

/-- `QPLinks(graph, options, QP)`: the initial gradient pass
`grad[k] = (0.5 - x[k]) * D[k]`, then the main loop (`none` models the
`return false` on `x[k] ∉ [0,1]`), finally `b = s` and
`ib = (s <= lo ? -1 : s < hi ? 0 : 1)`. -/
def QPLinks (G : Graph) (O : Options) (QP : QPDelta) : Option QPLinksResult :=
  let grad0 := (List.range G.n).map (fun k => (1/2 - QP.x.getD k 0) * QP.D.getD k 0)
  let st0 : QPLinksState :=
    { grad := grad0, s := 0, status := List.replicate G.n 0, freeList := [] }
  match (List.range G.n).foldl
          (fun ost k => ost.bind (fun st => qpLinksStep G QP st k)) (some st0) with
  | none => none
  | some st => some
    { grad := st.grad
    , FreeSet_status := st.status
    , FreeSet_list := st.freeList
    , nFreeSet := st.freeList.length
    , b := st.s
    , ib := if st.s ≤ QP.lo then -1 else if st.s < QP.hi then 0 else 1 }

/-! ## QPnapsack (the napsack projector)

Only the declaration of `QPNapsack` (Mongoose_QPNapsack.hpp) is among the
sources; the solver itself is modelled from the spec (§4.6): breakpoints
`y[k]/a[k]` (transition to 0) and `(y[k]-1)/a[k]` (transition to 1);
`a·clip(y-λa,0,1)` is piecewise linear and nonincreasing in λ; the scan walks
the break points in order, and when the next break point would move the value
past the target it solves the affine equation on the current interval for the
exact λ. -/

/-- Clamp to the unit interval: `clip(t, 0, 1)`. -/
def clip01 (t : ℚ) : ℚ := max 0 (min 1 t)

/-- The projected point `x = clip(y - λ a, 0, 1)`, componentwise over the
paired inputs. -/
def napX (y a : List ℚ) (lam : ℚ) : List ℚ :=
  (y.zip a).map (fun pr => clip01 (pr.1 - lam * pr.2))

/-- Dot product of two equally long coefficient lists. -/
def dotQ (u v : List ℚ) : ℚ :=
  ((u.zip v).map (fun pr => pr.1 * pr.2)).sum

/-- The constraint value `aᵀ clip(y - λ a, 0, 1)` as a function of λ. -/
def napValue (y a : List ℚ) (lam : ℚ) : ℚ :=
  ((y.zip a).map (fun pr => pr.2 * clip01 (pr.1 - lam * pr.2))).sum

/-- Modelled from the spec: the 2n break points of the napsack scan,
`(y[k]-1)/a[k]` (x hits 1) and `y[k]/a[k]` (x hits 0) for each k. -/
def napBps (y a : List ℚ) : List ℚ :=
  (y.zip a).flatMap (fun pr => [(pr.1 - 1) / pr.2, pr.1 / pr.2])

/-- Modelled from the spec: solve the affine equation for λ on the breakpoint
interval `[b1, b2]`, interpolating between the values at the endpoints. -/
def napSolve (y a : List ℚ) (t b1 b2 : ℚ) : ℚ :=
  if napValue y a b1 = napValue y a b2 then b1
  else b1 + (napValue y a b1 - t) / (napValue y a b1 - napValue y a b2) * (b2 - b1)

/-- Modelled from the spec: the linear scan over the sorted break points;
stop at the first interval whose far end would move the value past the
target, and solve the affine equation there. -/
def napScan (y a : List ℚ) (t : ℚ) : ℚ → List ℚ → ℚ
  | b1, [] => b1
  | b1, b2 :: rest =>
      if napValue y a b2 ≤ t then napSolve y a t b1 b2
      else napScan y a t b2 rest

/-- Modelled from the spec: `QPNapsack` — find the multiplier λ with
`aᵀ clip(y - λ a, 0, 1) = t` by the breakpoint scan (the implementation
file of `QPNapsack`/`QPnapup`/`QPnapdown` is not among the sources; the
heap-based scan of the spec visits the break points in sorted order). -/
def QPnapsack (y a : List ℚ) (t : ℚ) : ℚ :=
  match List.insertionSort (· ≤ ·) (napBps y a) with
  | [] => 0
  | b :: l => napScan y a t b l

/-! ## Concrete instances for the witnesses -/

/-- A path on four unit-weight vertices 0-1-2-3, with the completed matching
`{0,1} {2,3}`: `matching = [2,1,4,3]`, `matchmap = [0,0,1,1]`,
`invmatchmap = [0,2]`, `cn = 2`. -/
def pathGraph4 : Graph :=
  { n := 4, p := [0, 1, 3, 5, 6], i := [1, 0, 2, 1, 3, 2]
  , x := [1, 1, 1, 1, 1, 1], w := [1, 1, 1, 1], W := 4
  , X := 0, H := 0, vertexGains := []
  , matching := [2, 1, 4, 3], matchmap := [0, 0, 1, 1]
  , invmatchmap := [0, 2], cn := 2, singleton := -1 }

/-- Two unit-weight vertices joined by one edge, matched together into a
single supernode (`cn = 1`): the whole graph collapses to one coarse vertex. -/
def pairGraph : Graph :=
  { n := 2, p := [0, 1, 2], i := [1, 0]
  , x := [1, 1], w := [1, 1], W := 2
  , X := 0, H := 0, vertexGains := []
  , matching := [2, 1], matchmap := [0, 0]
  , invmatchmap := [0], cn := 1, singleton := -1 }

/-- A triangle 0-1-2 plus two isolated vertices 3 and 4, with an empty
matching: the cleanup input of spec Scenario D (extended by a second
singleton). -/
def triPlusIso : Graph :=
  { n := 5, p := [0, 2, 4, 6, 6, 6], i := [1, 2, 0, 2, 0, 1]
  , x := [1, 1, 1, 1, 1, 1], w := [1, 1, 1, 1, 1], W := 5
  , X := 0, H := 0, vertexGains := []
  , matching := [0, 0, 0, 0, 0], matchmap := [], invmatchmap := []
  , cn := 0, singleton := -1 }

/-- A path on three unit-weight vertices 0-1-2 with an empty matching. -/
def pathGraph3 : Graph :=
  { n := 3, p := [0, 1, 3, 4], i := [1, 0, 2, 1]
  , x := [1, 1, 1, 1], w := [1, 1, 1], W := 3
  , X := 0, H := 0, vertexGains := []
  , matching := [0, 0, 0], matchmap := [], invmatchmap := []
  , cn := 0, singleton := -1 }

/-- The `QPDelta` input used by the `QPLinks` witness on `pairGraph`:
`x = [1/2, 1]`, `D = [2, 2]`, `lo = 1`, `hi = 2`. -/
def qpdPair : QPDelta :=
  { x := [1/2, 1], D := [2, 2], lo := 1, hi := 2 }

end MongooseSpec

namespace MongooseSpec

/-! ## Helper lemmas: array updates and matchedness -/

theorem getD_set' {α : Type} (l : List α) (a j : Nat) (x d : α) :
    (l.set a x).getD j d = if a = j ∧ j < l.length then x else l.getD j d := by
  simp only [List.getD_eq_getElem?_getD, List.getElem?_set]
  by_cases haj : a = j
  · subst haj
    by_cases hlen : a < l.length
    · simp [hlen]
    · have hnone : l[a]? = none := List.getElem?_eq_none (Nat.le_of_not_lt hlen)
      simp [hlen, hnone]
  · simp [haj]

theorem length_createMatch (m : List Nat) (a b : Nat) :
    (createMatch m a b).length = m.length := by
  simp [createMatch]

theorem getD_createMatch (m : List Nat) (a b j : Nat) :
    (createMatch m a b).getD j 0 =
      if a = j ∧ j < m.length then b + 1
      else if b = j ∧ j < m.length then a + 1
      else m.getD j 0 := by
  unfold createMatch
  rw [getD_set', getD_set', List.length_set]

theorem isMatched_createMatch_of (m : List Nat) (a b v : Nat)
    (h : isMatched m v) : isMatched (createMatch m a b) v := by
  unfold isMatched at h ⊢
  rw [getD_createMatch]
  split_ifs with h1 h2
  · simp
  · simp
  · exact h

theorem isMatched_createMatch_left (m : List Nat) (a b : Nat)
    (ha : a < m.length) : isMatched (createMatch m a b) a := by
  unfold isMatched
  rw [getD_createMatch]
  simp [ha]

/-- Matchedness is monotone along the `matching_Random` vertex loop. -/
theorem matchStepRandom_mono (G : Graph) (m : List Nat) (k v : Nat)
    (h : isMatched m v) : isMatched (matchStepRandom G m k) v := by
  unfold matchStepRandom
  split
  · exact h
  · split
    · exact isMatched_createMatch_of _ _ _ _ h
    · exact h

/-- Matchedness is monotone along the `matching_HEM` vertex loop. -/
theorem matchStepHEM_mono (G : Graph) (m : List Nat) (k v : Nat)
    (h : isMatched m v) : isMatched (matchStepHEM G m k) v := by
  unfold matchStepHEM
  split_ifs
  · exact h
  · exact h
  · exact isMatched_createMatch_of _ _ _ _ h

theorem foldl_isMatched_mono (f : List Nat → Nat → List Nat)
    (hf : ∀ m k v, isMatched m v → isMatched (f m k) v) :
    ∀ (l : List Nat) (m : List Nat) (v : Nat),
      isMatched m v → isMatched (l.foldl f m) v := by
  intro l
  induction l with
  | nil => intro m v h; exact h
  | cons a l ih => intro m v h; exact ih (f m a) v (hf m a v h)

theorem matchStepRandom_length (G : Graph) (m : List Nat) (k : Nat) :
    (matchStepRandom G m k).length = m.length := by
  unfold matchStepRandom
  split
  · rfl
  · split
    · exact length_createMatch _ _ _
    · rfl

theorem matchStepHEM_length (G : Graph) (m : List Nat) (k : Nat) :
    (matchStepHEM G m k).length = m.length := by
  unfold matchStepHEM
  split_ifs
  · rfl
  · rfl
  · exact length_createMatch _ _ _

theorem foldl_length_inv (f : List Nat → Nat → List Nat)
    (hf : ∀ m k, (f m k).length = m.length) :
    ∀ (l : List Nat) (m : List Nat), (l.foldl f m).length = m.length := by
  intro l
  induction l with
  | nil => intro m; rfl
  | cons a l ih => intro m; rw [List.foldl_cons, ih, hf]

/-! ## HEM scan lemmas -/

theorem hemStep_fst_ne (G : Graph) (m : List Nat) (acc : Int × ℚ) (q : Nat)
    (h : acc.1 ≠ -1) : (hemStep G m acc q).1 ≠ -1 := by
  unfold hemStep
  by_cases h1 : isMatched m (G.i.getD q 0)
  · rw [if_pos h1]; exact h
  · rw [if_neg h1]
    by_cases h2 : acc.2 < G.x.getD q 0
    · rw [if_pos h2]
      show Int.ofNat (G.i.getD q 0) ≠ -1
      rw [Int.ofNat_eq_coe]
      omega
    · rw [if_neg h2]; exact h

theorem hemScan_foldl_ne (G : Graph) (m : List Nat) :
    ∀ (l : List Nat) (acc : Int × ℚ), acc.1 ≠ -1 →
      (l.foldl (hemStep G m) acc).1 ≠ -1 := by
  intro l
  induction l with
  | nil => intro acc h; exact h
  | cons q l ih => intro acc h; exact ih _ (hemStep_fst_ne G m acc q h)

theorem hemScan_all_matched (G : Graph) (m : List Nat) :
    ∀ (l : List Nat), (∀ q ∈ l, 0 < G.x.getD q 0) →
      (l.foldl (hemStep G m) (-1, -1)).1 = -1 →
      ∀ q ∈ l, isMatched m (G.i.getD q 0) := by
  intro l
  induction l with
  | nil => intro _ _ q hq; cases hq
  | cons q0 l ih =>
      intro hx h q hq
      by_cases hm0 : isMatched m (G.i.getD q0 0)
      · have hstep : hemStep G m (-1, -1) q0 = (-1, -1) := by
          unfold hemStep; rw [if_pos hm0]
        rw [List.foldl_cons, hstep] at h
        rcases List.mem_cons.mp hq with rfl | hq'
        · exact hm0
        · exact ih (fun r hr => hx r (List.mem_cons_of_mem _ hr)) h q hq'
      · exfalso
        have hlt : ((-1, -1) : Int × ℚ).2 < G.x.getD q0 0 := by
          have h0 := hx q0 (List.mem_cons_self q0 l)
          show (-1 : ℚ) < G.x.getD q0 0
          linarith
        have hstep : hemStep G m (-1, -1) q0 =
            (Int.ofNat (G.i.getD q0 0), G.x.getD q0 0) := by
          unfold hemStep; rw [if_neg hm0, if_pos hlt]
        rw [List.foldl_cons, hstep] at h
        refine hemScan_foldl_ne G m l _ ?_ h
        show Int.ofNat (G.i.getD q0 0) ≠ -1
        rw [Int.ofNat_eq_coe]
        omega

/-! ## Range decomposition for the vertex loops -/

theorem range_split_at (n k : Nat) (hk : k < n) :
    List.range n = List.range (k + 1) ++ List.range' (k + 1) (n - (k + 1)) := by
  rw [List.range_eq_range', List.range_eq_range']
  have h := List.range'_append 0 (k + 1) (n - (k + 1)) 1
  simp only [one_mul, Nat.zero_add] at h
  have h2 : (n - (k + 1)) + (k + 1) = n := by omega
  nth_rewrite 1 [← h2]
  exact h.symm

end MongooseSpec

namespace MongooseSpec

/-! ## Maximality of matching_Random and matching_HEM -/

theorem matching_Random_maximal_aux (G : Graph) (m0 : List Nat)
    (hm : m0.length = G.n) (k : Nat) (hk : k < G.n)
    (hunm : ¬ isMatched ((List.range G.n).foldl (matchStepRandom G) m0) k) :
    ∀ q ∈ slots G k,
      isMatched ((List.range G.n).foldl (matchStepRandom G) m0) (G.i.getD q 0) := by
  rw [range_split_at G.n k hk, List.foldl_append, List.range_succ,
    List.foldl_append, List.foldl_cons, List.foldl_nil] at hunm ⊢
  intro q hq
  set A := (List.range k).foldl (matchStepRandom G) m0 with hA
  have hAlen : A.length = G.n := by
    rw [hA, foldl_length_inv _ (matchStepRandom_length G), hm]
  have hBk : ¬ isMatched (matchStepRandom G A k) k := fun hB =>
    hunm (foldl_isMatched_mono _ (matchStepRandom_mono G) _ _ _ hB)
  have hAk : ¬ isMatched A k := fun hA' => hBk (matchStepRandom_mono G A k k hA')
  have hfind : ((slots G k).map (fun q => G.i.getD q 0)).find?
      (fun nb => ¬ isMatched A nb) = none := by
    cases hcase : ((slots G k).map (fun q => G.i.getD q 0)).find?
        (fun nb => ¬ isMatched A nb) with
    | none => rfl
    | some nb =>
        exfalso
        apply hBk
        unfold matchStepRandom
        rw [if_neg hAk, hcase]
        exact isMatched_createMatch_left _ _ _ (by rw [hAlen]; exact hk)
  have hall := List.find?_eq_none.mp hfind
  have hnb : isMatched A (G.i.getD q 0) := by
    have := hall (G.i.getD q 0) (List.mem_map_of_mem _ hq)
    simpa using this
  exact foldl_isMatched_mono _ (matchStepRandom_mono G) _ _ _
    (matchStepRandom_mono G A k _ hnb)

theorem matching_HEM_maximal_aux (G : Graph) (m0 : List Nat)
    (hm : m0.length = G.n) (hx : PositiveEdgeWeights G) (k : Nat) (hk : k < G.n)
    (hunm : ¬ isMatched ((List.range G.n).foldl (matchStepHEM G) m0) k) :
    ∀ q ∈ slots G k,
      isMatched ((List.range G.n).foldl (matchStepHEM G) m0) (G.i.getD q 0) := by
  rw [range_split_at G.n k hk, List.foldl_append, List.range_succ,
    List.foldl_append, List.foldl_cons, List.foldl_nil] at hunm ⊢
  intro q hq
  set A := (List.range k).foldl (matchStepHEM G) m0 with hA
  have hAlen : A.length = G.n := by
    rw [hA, foldl_length_inv _ (matchStepHEM_length G), hm]
  have hBk : ¬ isMatched (matchStepHEM G A k) k := fun hB =>
    hunm (foldl_isMatched_mono _ (matchStepHEM_mono G) _ _ _ hB)
  have hAk : ¬ isMatched A k := fun hA' => hBk (matchStepHEM_mono G A k k hA')
  have hscan : (hemScan G A k).1 = -1 := by
    by_contra hne
    apply hBk
    unfold matchStepHEM
    rw [if_neg hAk, if_neg hne]
    exact isMatched_createMatch_left _ _ _ (by rw [hAlen]; exact hk)
  have hnb : isMatched A (G.i.getD q 0) :=
    hemScan_all_matched G A (slots G k) (hx k hk) hscan q hq
  exact foldl_isMatched_mono _ (matchStepHEM_mono G) _ _ _
    (matchStepHEM_mono G A k _ hnb)

/-- C10: after `matching_Random` or `matching_HEM` returns, the matching is
maximal: every vertex is either matched, or all of its neighbors are matched
— no unmatched vertex has an unmatched neighbor. (Positivity of the stored
edge weights is the spec's standing invariant; the HEM scan needs it because
its initial best weight is `-1`.) -/
theorem c10_matching_random_hem_maximal (G : Graph) (O : Options)
    (hm : G.matching.length = G.n) (hx : PositiveEdgeWeights G) :
    (∀ k < G.n, (matching_Random G O).matching.getD k 0 = 0 →
      ∀ q ∈ slots G k, (matching_Random G O).matching.getD (G.i.getD q 0) 0 ≠ 0) ∧
    (∀ k < G.n, (matching_HEM G O).matching.getD k 0 = 0 →
      ∀ q ∈ slots G k, (matching_HEM G O).matching.getD (G.i.getD q 0) 0 ≠ 0) := by
  constructor
  · intro k hk h0 q hq
    have hunm : ¬ isMatched ((List.range G.n).foldl (matchStepRandom G) G.matching) k := by
      simp [isMatched, matching_Random] at h0 ⊢
      exact h0
    have := matching_Random_maximal_aux G G.matching hm k hk hunm q hq
    simpa [isMatched, matching_Random] using this
  · intro k hk h0 q hq
    have hunm : ¬ isMatched ((List.range G.n).foldl (matchStepHEM G) G.matching) k := by
      simp [isMatched, matching_HEM] at h0 ⊢
      exact h0
    have := matching_HEM_maximal_aux G G.matching hm hx k hk hunm q hq
    simpa [isMatched, matching_HEM] using this

/-- C10 witness: the maximality theorem applied to the path graph 0-1-2. -/
theorem c10_matching_random_hem_maximal_witness :
    pathGraph3.matching.length = pathGraph3.n ∧ PositiveEdgeWeights pathGraph3 ∧
    (∀ k < pathGraph3.n,
      (matching_Random pathGraph3 Options.Create).matching.getD k 0 = 0 →
      ∀ q ∈ slots pathGraph3 k,
        (matching_Random pathGraph3 Options.Create).matching.getD
          (pathGraph3.i.getD q 0) 0 ≠ 0) :=
  ⟨by decide, by decide,
    (c10_matching_random_hem_maximal pathGraph3 Options.Create
      (by decide) (by decide)).1⟩

/-! ## C7: the default options -/

/-- C7 counterexample: `Options::Create` sets `guessCutType` to
`Pseudoperipheral_Fast`, which is none of the QP, Random, or NaturalOrder
strategies; in particular the default is not the QP strategy. -/
theorem c7_guessCutType_default_counterexample :
    Options.Create.guessCutType = GuessCutType.Pseudoperipheral_Fast ∧
    Options.Create.guessCutType ≠ GuessCutType.GuessQP ∧
    Options.Create.guessCutType ≠ GuessCutType.GuessRandom ∧
    Options.Create.guessCutType ≠ GuessCutType.GuessNaturalOrder := by
  refine ⟨rfl, ?_, ?_, ?_⟩ <;> intro h <;> cases h

/-- C7 (amended): `Options::Create` returns the documented defaults
(randomSeed 0, coarsenLimit 256, matchingStrategy HEMDavisPA,
targetSplit 0.5, tolerance 0.01), but its `guessCutType` default is
`Pseudoperipheral_Fast`, not the QP strategy. -/
theorem c7_options_create_defaults :
    Options.Create.randomSeed = 0 ∧
    Options.Create.coarsenLimit = 256 ∧
    Options.Create.matchingStrategy = MatchingStrategy.HEMDavisPA ∧
    Options.Create.targetSplit = 1/2 ∧
    Options.Create.tolerance = 1/100 ∧
    Options.Create.guessCutType = GuessCutType.Pseudoperipheral_Fast :=
  ⟨rfl, rfl, rfl, rfl, rfl, rfl⟩

/-! ## C8: matching_Random ignores the random seed -/

/-- C8 counterexample: there is no graph and pair of option structs differing
in `randomSeed` for which `matching_Random` produces different matchings —
the source casts `options` to void and never reads the seed. -/
theorem c8_seed_dependence_counterexample :
    ¬ ∃ (G : Graph) (o₁ o₂ : Options), o₁.randomSeed ≠ o₂.randomSeed ∧
      (matching_Random G o₁).matching ≠ (matching_Random G o₂).matching := by
  rintro ⟨G, o₁, o₂, _, hne⟩
  exact hne rfl

/-- C8 (amended): the matching produced by `matching_Random` is independent
of the options, in particular of `options.randomSeed`: the neighbor scan is
in storage order and involves no random number generator. -/
theorem c8_matching_random_seed_independent (G : Graph) (o₁ o₂ : Options) :
    (matching_Random G o₁).matching = (matching_Random G o₂).matching := rfl

end MongooseSpec

namespace MongooseSpec

/-! ## createMatch entry lemmas -/

theorem getD_createMatch_left (m : List Nat) (a b : Nat) (ha : a < m.length) :
    (createMatch m a b).getD a 0 = b + 1 := by
  rw [getD_createMatch]
  simp [ha]

theorem getD_createMatch_right (m : List Nat) (a b : Nat) (hb : b < m.length)
    (hab : a ≠ b) : (createMatch m a b).getD b 0 = a + 1 := by
  rw [getD_createMatch]
  rw [if_neg (by intro hcon; exact hab hcon.1), if_pos ⟨rfl, hb⟩]

theorem getD_createMatch_unchanged (m : List Nat) (a b v : Nat)
    (hva : v ≠ a) (hvb : v ≠ b) :
    (createMatch m a b).getD v 0 = m.getD v 0 := by
  rw [getD_createMatch]
  rw [if_neg (by intro hcon; exact hva hcon.1.symm),
    if_neg (by intro hcon; exact hvb hcon.1.symm)]

theorem getD_createMatch_ne_zero (m : List Nat) (a b v : Nat)
    (h : m.getD v 0 ≠ 0) : (createMatch m a b).getD v 0 ≠ 0 := by
  rw [getD_createMatch]
  split_ifs with h1 h2
  · exact Nat.succ_ne_zero b
  · exact Nat.succ_ne_zero a
  · exact h

theorem getD_createMatch_eq_of_matched (m : List Nat) (a b v : Nat)
    (hma : m.getD a 0 = 0) (hmb : m.getD b 0 = 0) (hv : m.getD v 0 ≠ 0) :
    (createMatch m a b).getD v 0 = m.getD v 0 := by
  rw [getD_createMatch_unchanged]
  · intro hcon; subst hcon; exact hv hma
  · intro hcon; subst hcon; exact hv hmb

theorem getMatch_createMatch_eq_of_matched (m : List Nat) (a b v : Nat)
    (hma : m.getD a 0 = 0) (hmb : m.getD b 0 = 0) (hv : m.getD v 0 ≠ 0) :
    getMatch (createMatch m a b) v = getMatch m v := by
  unfold getMatch
  rw [getD_createMatch_eq_of_matched m a b v hma hmb hv]

/-- Creating a match between two unmatched in-range vertices preserves
validity of a partial matching. -/
theorem validPartial_createMatch (n : Nat) (m : List Nat) (hlen : m.length = n)
    (hval : ValidPartialMatching n m) (a b : Nat) (ha : a < n) (hb : b < n)
    (hma : m.getD a 0 = 0) (hmb : m.getD b 0 = 0) :
    ValidPartialMatching n (createMatch m a b) := by
  have ham : a < m.length := by omega
  have hbm : b < m.length := by omega
  intro k hk hkne
  by_cases hka : k = a
  · subst hka
    have hga : getMatch (createMatch m k b) k = b := by
      unfold getMatch
      rw [getD_createMatch_left m k b ham]
      omega
    refine ⟨by rw [hga]; exact hb, ?_, ?_⟩
    · rw [hga]
      by_cases hab : k = b
      · subst hab
        rw [getD_createMatch_left m k k ham]
        exact Nat.succ_ne_zero k
      · rw [getD_createMatch_right m k b hbm hab]
        exact Nat.succ_ne_zero k
    · by_cases hab : k = b
      · subst hab
        exact Or.inl hga
      · refine Or.inr (Or.inl ?_)
        rw [hga]
        unfold getMatch
        rw [getD_createMatch_right m k b hbm hab]
        omega
  · by_cases hkb : k = b
    · subst hkb
      have hab : a ≠ k := fun hcon => hka hcon.symm
      have hgb : getMatch (createMatch m a k) k = a := by
        unfold getMatch
        rw [getD_createMatch_right m a k hbm hab]
        omega
      refine ⟨by rw [hgb]; exact ha, ?_, ?_⟩
      · rw [hgb, getD_createMatch_left m a k ham]
        exact Nat.succ_ne_zero k
      · refine Or.inr (Or.inl ?_)
        rw [hgb]
        unfold getMatch
        rw [getD_createMatch_left m a k ham]
        omega
    · have hkeq : (createMatch m a b).getD k 0 = m.getD k 0 :=
        getD_createMatch_unchanged m a b k hka hkb
      have hmk : m.getD k 0 ≠ 0 := by rw [← hkeq]; exact hkne
      obtain ⟨hu1n, hu1m, hcyc⟩ := hval k hk hmk
      have hg1 : getMatch (createMatch m a b) k = getMatch m k := by
        unfold getMatch; rw [hkeq]
      obtain ⟨hu2n, hu2m, _⟩ := hval (getMatch m k) hu1n hu1m
      have hg2 : getMatch (createMatch m a b) (getMatch m k) =
          getMatch m (getMatch m k) :=
        getMatch_createMatch_eq_of_matched m a b _ hma hmb hu1m
      have hg3 : getMatch (createMatch m a b) (getMatch m (getMatch m k)) =
          getMatch m (getMatch m (getMatch m k)) :=
        getMatch_createMatch_eq_of_matched m a b _ hma hmb hu2m
      refine ⟨by rw [hg1]; exact hu1n, ?_, ?_⟩
      · rw [hg1, getD_createMatch_eq_of_matched m a b _ hma hmb hu1m]
        exact hu1m
      · rw [hg1, hg2, hg3]
        exact hcyc

end MongooseSpec

namespace MongooseSpec

/-! ## The matching_Cleanup loop invariant -/

theorem cleanupStep_preserves (G : Graph) (st : CleanupState) (j : Nat)
    (hj : j < G.n) (hinv : CleanupInv G j st) :
    CleanupInv G (j + 1) (cleanupStep G st j) := by
  obtain ⟨hlen, hkeep, huntouched, hsing, horphan, hiso, hcov, hvalid⟩ := hinv
  have hjm : j < st.m.length := by omega
  by_cases hm : isMatched st.m j
  · -- the vertex is already matched: the step is a no-op
    have hmj : st.m.getD j 0 ≠ 0 := by simpa [isMatched] using hm
    have hprej : G.matching.getD j 0 ≠ 0 := by
      intro hcon
      exact hmj (huntouched j (le_refl j) hcon)
    unfold cleanupStep
    rw [if_pos hm]
    refine ⟨hlen, hkeep, fun v hv => huntouched v (by omega), ?_, ?_, ?_, ?_, hvalid⟩
    · rcases hsing with h | ⟨s, h1, h2, h3, h4, h5, h6⟩
      · exact Or.inl h
      · exact Or.inr ⟨s, by omega, h2, h3, h4, h5, h6⟩
    · intro k hk hk0 hkd
      rcases Nat.lt_succ_iff_lt_or_eq.mp hk with hk' | rfl
      · exact horphan k hk' hk0 hkd
      · exact absurd hk0 hprej
    · intro k hk hk0 hkd
      rcases Nat.lt_succ_iff_lt_or_eq.mp hk with hk' | rfl
      · exact hiso k hk' hk0 hkd
      · exact absurd hk0 hprej
    · intro k hk
      rcases Nat.lt_succ_iff_lt_or_eq.mp hk with hk' | rfl
      · exact hcov k hk'
      · exact Or.inl hmj
  · -- the vertex is unmatched
    have hmj : st.m.getD j 0 = 0 := by
      by_contra hcon
      exact hm (by simpa [isMatched] using hcon)
    have hprej : G.matching.getD j 0 = 0 := by
      by_contra hcon
      rw [hkeep j hcon] at hmj
      exact hcon hmj
    by_cases hdeg : degree G j = 0
    · by_cases hsg : st.singleton = -1
      · -- hold the isolated vertex in the singleton slot
        unfold cleanupStep
        rw [if_neg hm, if_pos hdeg, if_pos hsg]
        refine ⟨hlen, hkeep, fun v hv => huntouched v (by omega), ?_, ?_, ?_, ?_, hvalid⟩
        · exact Or.inr ⟨j, by omega, hj, rfl, hprej, hdeg, hmj⟩
        · intro k hk hk0 hkd
          rcases Nat.lt_succ_iff_lt_or_eq.mp hk with hk' | rfl
          · exact horphan k hk' hk0 hkd
          · exact absurd hdeg hkd
        · intro k hk hk0 hkd
          rcases Nat.lt_succ_iff_lt_or_eq.mp hk with hk' | rfl
          · rcases hiso k hk' hk0 hkd with ⟨hsk, _⟩ | hpair
            · rw [hsg] at hsk
              exact absurd hsk.symm (by rw [Int.ofNat_eq_coe]; omega)
            · exact Or.inr hpair
          · exact Or.inl ⟨rfl, hmj⟩
        · intro k hk
          rcases Nat.lt_succ_iff_lt_or_eq.mp hk with hk' | rfl
          · rcases hcov k hk' with h | h
            · exact Or.inl h
            · rw [hsg] at h
              exact absurd h.symm (by rw [Int.ofNat_eq_coe]; omega)
          · exact Or.inr rfl
      · -- pair the isolated vertex with the held singleton
        rcases hsing with h | ⟨s, hsj, hsn, hss, hsps, hsdeg, hsm⟩
        · exact absurd h hsg
        have hsje : s ≠ j := by omega
        have hsmlen : s < st.m.length := by omega
        unfold cleanupStep
        rw [if_neg hm, if_pos hdeg, if_neg hsg, hss]
        have htn : (Int.ofNat s).toNat = s := rfl
        rw [htn]
        have hMj : (createMatch st.m j s).getD j 0 = s + 1 :=
          getD_createMatch_left st.m j s hjm
        have hMs : (createMatch st.m j s).getD s 0 = j + 1 :=
          getD_createMatch_right st.m j s hsmlen (fun hcon => hsje hcon.symm)
        refine ⟨?_, ?_, ?_, Or.inl rfl, ?_, ?_, ?_, ?_⟩
        · rw [length_createMatch]; exact hlen
        · intro v hv
          have hvj : v ≠ j := fun hcon => hv (hcon ▸ hprej)
          have hvs : v ≠ s := fun hcon => hv (hcon ▸ hsps)
          rw [getD_createMatch_unchanged st.m j s v hvj hvs]
          exact hkeep v hv
        · intro v hv hv0
          have hvj : v ≠ j := by omega
          have hvs : v ≠ s := by omega
          rw [getD_createMatch_unchanged st.m j s v hvj hvs]
          exact huntouched v (by omega) hv0
        · intro k hk hk0 hkd
          rcases Nat.lt_succ_iff_lt_or_eq.mp hk with hk' | rfl
          · have hkj : k ≠ j := by omega
            have hks : k ≠ s := fun hcon => hkd (hcon ▸ hsdeg)
            rw [getD_createMatch_unchanged st.m j s k hkj hks]
            exact horphan k hk' hk0 hkd
          · exact absurd hdeg hkd
        · intro k hk hk0 hkd
          rcases Nat.lt_succ_iff_lt_or_eq.mp hk with hk' | rfl
          · rcases hiso k hk' hk0 hkd with ⟨hsk, hk00⟩ | ⟨v, hvn, hvk, hv0, hvdeg, hkv, hvk'⟩
            · have hks : k = s := by
                rw [hss] at hsk
                simp only [Int.ofNat_eq_coe] at hsk
                omega
              subst hks
              refine Or.inr ⟨j, hj, by omega, hprej, hdeg, ?_, ?_⟩
              · exact hMs
              · exact hMj
            · have hkj : k ≠ j := by omega
              have hks : k ≠ s := fun hcon => by
                rw [hcon] at hkv
                rw [hsm] at hkv
                omega
              have hvj : v ≠ j := fun hcon => by
                rw [hcon] at hvk'
                rw [hmj] at hvk'
                omega
              have hvs : v ≠ s := fun hcon => by
                rw [hcon] at hvk'
                rw [hsm] at hvk'
                omega
              refine Or.inr ⟨v, hvn, hvk, hv0, hvdeg, ?_, ?_⟩
              · rw [getD_createMatch_unchanged st.m j s k hkj hks]; exact hkv
              · rw [getD_createMatch_unchanged st.m j s v hvj hvs]; exact hvk'
          · exact Or.inr ⟨s, hsn, hsje, hsps, hsdeg, hMj, hMs⟩
        · intro k hk
          rcases Nat.lt_succ_iff_lt_or_eq.mp hk with hk' | rfl
          · rcases hcov k hk' with h | h
            · exact Or.inl (getD_createMatch_ne_zero st.m j s k h)
            · have hks : k = s := by
                rw [hss] at h
                simp only [Int.ofNat_eq_coe] at h
                omega
              subst hks
              exact Or.inl (by rw [hMs]; omega)
          · exact Or.inl (by rw [hMj]; omega)
        · exact validPartial_createMatch G.n st.m hlen hvalid j s hj hsn hmj hsm
    · -- nonzero degree: orphan self-match
      unfold cleanupStep
      rw [if_neg hm, if_neg hdeg]
      have hMj : (createMatch st.m j j).getD j 0 = j + 1 :=
        getD_createMatch_left st.m j j hjm
      refine ⟨?_, ?_, ?_, ?_, ?_, ?_, ?_, ?_⟩
      · rw [length_createMatch]; exact hlen
      · intro v hv
        have hvj : v ≠ j := fun hcon => hv (hcon ▸ hprej)
        rw [getD_createMatch_unchanged st.m j j v hvj hvj]
        exact hkeep v hv
      · intro v hv hv0
        have hvj : v ≠ j := by omega
        rw [getD_createMatch_unchanged st.m j j v hvj hvj]
        exact huntouched v (by omega) hv0
      · rcases hsing with h | ⟨s, h1, h2, h3, h4, h5, h6⟩
        · exact Or.inl h
        · have hsj' : s ≠ j := by omega
          exact Or.inr ⟨s, by omega, h2, h3, h4, h5,
            by rw [getD_createMatch_unchanged st.m j j s hsj' hsj']; exact h6⟩
      · intro k hk hk0 hkd
        rcases Nat.lt_succ_iff_lt_or_eq.mp hk with hk' | rfl
        · have hkj : k ≠ j := by omega
          rw [getD_createMatch_unchanged st.m j j k hkj hkj]
          exact horphan k hk' hk0 hkd
        · exact hMj
      · intro k hk hk0 hkd
        rcases Nat.lt_succ_iff_lt_or_eq.mp hk with hk' | rfl
        · rcases hiso k hk' hk0 hkd with ⟨hsk, hk00⟩ | ⟨v, hvn, hvk, hv0, hvdeg, hkv, hvk'⟩
          · have hkj : k ≠ j := by omega
            refine Or.inl ⟨hsk, ?_⟩
            rw [getD_createMatch_unchanged st.m j j k hkj hkj]
            exact hk00
          · have hkj : k ≠ j := by omega
            have hvj : v ≠ j := fun hcon => by
              rw [hcon] at hvk'
              rw [hmj] at hvk'
              omega
            refine Or.inr ⟨v, hvn, hvk, hv0, hvdeg, ?_, ?_⟩
            · rw [getD_createMatch_unchanged st.m j j k hkj hkj]; exact hkv
            · rw [getD_createMatch_unchanged st.m j j v hvj hvj]; exact hvk'
        · exact absurd hkd hdeg
      · intro k hk
        rcases Nat.lt_succ_iff_lt_or_eq.mp hk with hk' | rfl
        · rcases hcov k hk' with h | h
          · exact Or.inl (getD_createMatch_ne_zero st.m j j k h)
          · exact Or.inr h
        · exact Or.inl (by rw [hMj]; omega)
      · exact validPartial_createMatch G.n st.m hlen hvalid j j hj hj hmj hmj

end MongooseSpec

namespace MongooseSpec

theorem cleanup_fold_inv (G : Graph) (hpre : G.matching.length = G.n)
    (hval : ValidPartialMatching G.n G.matching) (hs0 : G.singleton = -1) :
    ∀ j, j ≤ G.n →
      CleanupInv G j ((List.range j).foldl (cleanupStep G)
        { m := G.matching, singleton := G.singleton }) := by
  intro j
  induction j with
  | zero =>
      intro _
      refine ⟨hpre, fun v _ => rfl, fun v _ _ => ?_, Or.inl hs0,
        fun k hk => absurd hk (by omega), fun k hk => absurd hk (by omega),
        fun k hk => absurd hk (by omega), hval⟩
      assumption
  | succ j ih =>
      intro hj
      rw [List.range_succ, List.foldl_append, List.foldl_cons, List.foldl_nil]
      exact cleanupStep_preserves G _ j (by omega) (ih (by omega))

/-- C3: for any graph whose pre-cleanup matching is a valid partial matching
(what every strategy guarantees) and whose `singleton` slot starts empty,
after `matching_Cleanup` every vertex `k` is matched (`matching[k] ≠ 0`) and
lies on a `getMatch`-cycle of length 1, 2 or 3 (its unique supernode); a
pre-cleanup-unmatched vertex of nonzero degree becomes an orphan self-match;
and a pre-cleanup-unmatched isolated (degree-0) vertex is either self-matched
(the leftover singleton) or paired with another unmatched isolated vertex
(the singleton held when it was reached). -/
theorem c3_cleanup_total_matching (G : Graph) (O : Options)
    (hpre : G.matching.length = G.n)
    (hs0 : G.singleton = -1)
    (hval : ValidPartialMatching G.n G.matching) :
    (∀ k < G.n, (matching_Cleanup G O).matching.getD k 0 ≠ 0) ∧
    ValidTotalMatching G.n (matching_Cleanup G O).matching ∧
    (∀ k < G.n, G.matching.getD k 0 = 0 → degree G k ≠ 0 →
      (matching_Cleanup G O).matching.getD k 0 = k + 1) ∧
    (∀ k < G.n, G.matching.getD k 0 = 0 → degree G k = 0 →
      ((matching_Cleanup G O).matching.getD k 0 = k + 1 ∨
        ∃ v < G.n, v ≠ k ∧ G.matching.getD v 0 = 0 ∧ degree G v = 0 ∧
          (matching_Cleanup G O).matching.getD k 0 = v + 1 ∧
          (matching_Cleanup G O).matching.getD v 0 = k + 1)) := by
  obtain ⟨hlen, hkeep, huntouched, hsing, horphan, hiso, hcov, hvalid⟩ :=
    cleanup_fold_inv G hpre hval hs0 G.n (le_refl G.n)
  set F := (List.range G.n).foldl (cleanupStep G)
    { m := G.matching, singleton := G.singleton } with hF
  have hM : (matching_Cleanup G O).matching =
      if F.singleton ≠ -1 then createMatch F.m F.singleton.toNat F.singleton.toNat
      else F.m := by
    simp only [matching_Cleanup, ← hF]
    by_cases hc : F.singleton ≠ -1
    · rw [if_pos hc, if_pos hc]
    · rw [if_neg hc, if_neg hc]
  by_cases hend : F.singleton = -1
  · rw [hM, if_neg (by simp [hend])]
    have hmatched : ∀ k < G.n, F.m.getD k 0 ≠ 0 := by
      intro k hk
      rcases hcov k hk with h | h
      · exact h
      · rw [hend] at h
        exact absurd h.symm (by rw [Int.ofNat_eq_coe]; omega)
    refine ⟨hmatched, ?_, ?_, ?_⟩
    · intro k hk
      obtain ⟨h1, h2, h3⟩ := hvalid k hk (hmatched k hk)
      exact ⟨hmatched k hk, h1, h3⟩
    · intro k hk hk0 hkd
      exact horphan k hk hk0 hkd
    · intro k hk hk0 hkd
      rcases hiso k hk hk0 hkd with ⟨hsk, _⟩ | ⟨v, hvn, hvk, hv0, hvdeg, hkv, hvk'⟩
      · rw [hend] at hsk
        exact absurd hsk.symm (by rw [Int.ofNat_eq_coe]; omega)
      · exact Or.inr ⟨v, hvn, hvk, hv0, hvdeg, hkv, hvk'⟩
  · rcases hsing with h | ⟨s, hsj, hsn, hss, hsps, hsdeg, hsm⟩
    · exact absurd h hend
    rw [hM, if_pos (by simp [hend]), hss]
    have htn : (Int.ofNat s).toNat = s := rfl
    rw [htn]
    have hsmlen : s < F.m.length := by omega
    have hMs : (createMatch F.m s s).getD s 0 = s + 1 :=
      getD_createMatch_left F.m s s hsmlen
    have hmatched : ∀ k < G.n, (createMatch F.m s s).getD k 0 ≠ 0 := by
      intro k hk
      rcases hcov k hk with h | h
      · exact getD_createMatch_ne_zero F.m s s k h
      · have hks : k = s := by
          rw [hss] at h
          simp only [Int.ofNat_eq_coe] at h
          omega
        subst hks
        rw [hMs]
        omega
    have hvalid' : ValidPartialMatching G.n (createMatch F.m s s) :=
      validPartial_createMatch G.n F.m hlen hvalid s s hsn hsn hsm hsm
    refine ⟨hmatched, ?_, ?_, ?_⟩
    · intro k hk
      obtain ⟨h1, h2, h3⟩ := hvalid' k hk (hmatched k hk)
      exact ⟨hmatched k hk, h1, h3⟩
    · intro k hk hk0 hkd
      have hks : k ≠ s := fun hcon => hkd (hcon ▸ hsdeg)
      rw [getD_createMatch_unchanged F.m s s k hks hks]
      exact horphan k hk hk0 hkd
    · intro k hk hk0 hkd
      rcases hiso k hk hk0 hkd with ⟨hsk, hk00⟩ | ⟨v, hvn, hvk, hv0, hvdeg, hkv, hvk'⟩
      · have hks : k = s := by
          rw [hss] at hsk
          simp only [Int.ofNat_eq_coe] at hsk
          omega
        subst hks
        exact Or.inl hMs
      · have hkj : k ≠ s := fun hcon => by
          rw [hcon] at hkv
          rw [hsm] at hkv
          omega
        have hvj : v ≠ s := fun hcon => by
          rw [hcon] at hvk'
          rw [hsm] at hvk'
          omega
        refine Or.inr ⟨v, hvn, hvk, hv0, hvdeg, ?_, ?_⟩
        · rw [getD_createMatch_unchanged F.m s s k hkj hkj]; exact hkv
        · rw [getD_createMatch_unchanged F.m s s v hvj hvj]; exact hvk'

/-- C3 witness: the cleanup theorem applied to the triangle with two isolated
vertices and an empty pre-matching. -/
theorem c3_cleanup_total_matching_witness :
    triPlusIso.matching.length = triPlusIso.n ∧
    triPlusIso.singleton = -1 ∧
    ValidPartialMatching triPlusIso.n triPlusIso.matching ∧
    (∀ k < triPlusIso.n,
      (matching_Cleanup triPlusIso Options.Create).matching.getD k 0 ≠ 0) ∧
    ValidTotalMatching triPlusIso.n
      (matching_Cleanup triPlusIso Options.Create).matching :=
  ⟨by decide, by decide, by decide,
    (c3_cleanup_total_matching triPlusIso Options.Create
      (by decide) (by decide) (by decide)).1,
    (c3_cleanup_total_matching triPlusIso Options.Create
      (by decide) (by decide) (by decide)).2.1⟩

end MongooseSpec

namespace MongooseSpec

/-! ## Association-list scatter lemmas (the hashtable column) -/

theorem accum_keys (col : List (Nat × ℚ)) (c : Nat) (wt : ℚ) :
    (accum col c wt).map Prod.fst =
      if c ∈ col.map Prod.fst then col.map Prod.fst
      else col.map Prod.fst ++ [c] := by
  induction col with
  | nil => simp [accum]
  | cons pr col ih =>
      obtain ⟨c0, w0⟩ := pr
      by_cases hc : c0 = c
      · subst hc
        simp [accum]
      · simp only [accum, if_neg hc, List.map_cons]
        rw [ih]
        by_cases hmem : c ∈ col.map Prod.fst
        · rw [if_pos hmem, if_pos (by simp [hmem])]
        · rw [if_neg hmem, if_neg (by simp [hmem, Ne.symm hc])]
          simp

theorem assocSum_nil (c : Nat) : assocSum [] c = 0 := rfl

theorem accum_nil (c : Nat) (wt : ℚ) : accum [] c wt = [(c, wt)] := rfl

theorem accum_cons (c0 : Nat) (w0 : ℚ) (col : List (Nat × ℚ)) (c : Nat) (wt : ℚ) :
    accum ((c0, w0) :: col) c wt =
      if c0 = c then (c0, w0 + wt) :: col else (c0, w0) :: accum col c wt := rfl

theorem assocSum_cons (c0 : Nat) (w0 : ℚ) (col : List (Nat × ℚ)) (c : Nat) :
    assocSum ((c0, w0) :: col) c =
      (if c0 = c then w0 else 0) + assocSum col c := by
  simp only [assocSum, List.filter_cons, decide_eq_true_eq]
  by_cases h : c0 = c
  · rw [if_pos h, if_pos h]
    simp
  · rw [if_neg h, if_neg h]
    simp

theorem accum_assocSum (col : List (Nat × ℚ)) (c : Nat) (wt : ℚ) (c' : Nat) :
    assocSum (accum col c wt) c' =
      assocSum col c' + (if c' = c then wt else 0) := by
  induction col with
  | nil =>
      rw [accum_nil, assocSum_cons, assocSum_nil]
      by_cases h : c = c'
      · rw [if_pos h, if_pos h.symm]
        ring
      · rw [if_neg h, if_neg (fun hcon => h hcon.symm)]
  | cons pr col ih =>
      obtain ⟨c0, w0⟩ := pr
      rw [accum_cons]
      by_cases hc : c0 = c
      · subst hc
        rw [if_pos rfl, assocSum_cons, assocSum_cons]
        by_cases h : c0 = c'
        · rw [if_pos h, if_pos h, if_pos h.symm]
          ring
        · rw [if_neg h, if_neg h, if_neg (fun hcon => h hcon.symm)]
          ring
      · rw [if_neg hc, assocSum_cons, assocSum_cons, ih]
        ring

theorem accum_keys_nodup (col : List (Nat × ℚ)) (c : Nat) (wt : ℚ)
    (h : (col.map Prod.fst).Nodup) : ((accum col c wt).map Prod.fst).Nodup := by
  rw [accum_keys]
  by_cases hmem : c ∈ col.map Prod.fst
  · rw [if_pos hmem]; exact h
  · rw [if_neg hmem]
    simp [List.nodup_append, h, hmem]

theorem accum_mem_keys (col : List (Nat × ℚ)) (c : Nat) (wt : ℚ) (c' : Nat) :
    (c' ∈ (accum col c wt).map Prod.fst) ↔
      (c' ∈ col.map Prod.fst ∨ c' = c) := by
  rw [accum_keys]
  by_cases hmem : c ∈ col.map Prod.fst
  · rw [if_pos hmem]
    constructor
    · exact Or.inl
    · rintro (h | rfl)
      · exact h
      · exact hmem
  · rw [if_neg hmem]
    simp

theorem assocSum_of_not_mem (col : List (Nat × ℚ)) (c : Nat)
    (h : c ∉ col.map Prod.fst) : assocSum col c = 0 := by
  unfold assocSum
  have : col.filter (fun pr => pr.1 = c) = [] := by
    rw [List.filter_eq_nil_iff]
    intro pr hpr
    simp only [decide_eq_true_eq]
    intro hcon
    exact h (by rw [← hcon]; exact List.mem_map_of_mem Prod.fst hpr)
  rw [this]
  rfl

theorem mem_assocSum_of_nodup (col : List (Nat × ℚ))
    (h : (col.map Prod.fst).Nodup) :
    ∀ pr ∈ col, pr.2 = assocSum col pr.1 := by
  induction col with
  | nil => intro pr hpr; cases hpr
  | cons pr0 col ih =>
      intro pr hpr
      obtain ⟨c0, w0⟩ := pr0
      simp only [List.map_cons, List.nodup_cons] at h
      rcases List.mem_cons.mp hpr with rfl | hpr'
      · show w0 = assocSum ((c0, w0) :: col) c0
        rw [assocSum_cons, if_pos rfl, assocSum_of_not_mem col c0 h.1]
        ring
      · have hne : c0 ≠ pr.1 := by
          intro hcon
          exact h.1 (hcon ▸ List.mem_map_of_mem Prod.fst hpr')
        rw [assocSum_cons, if_neg hne, ih h.2 pr hpr']
        ring

end MongooseSpec

namespace MongooseSpec

/-! ## Column fold lemmas -/

theorem colFold_mem_keys (G : Graph) (k : Nat) :
    ∀ (l : List Nat) (col0 : List (Nat × ℚ)) (c : Nat),
      c ∈ ((l.foldl (colStep G k) col0).map Prod.fst) ↔
        c ∈ col0.map Prod.fst ∨ (c ≠ k ∧ ∃ q ∈ l, colTarget G q = c) := by
  intro l
  induction l with
  | nil => intro col0 c; simp
  | cons q l ih =>
      intro col0 c
      rw [List.foldl_cons, ih]
      unfold colStep
      by_cases hq : colTarget G q = k
      · rw [if_pos hq]
        constructor
        · rintro (h | h)
          · exact Or.inl h
          · exact Or.inr ⟨h.1, h.2.imp (fun q' h' => ⟨List.mem_cons_of_mem _ h'.1, h'.2⟩)⟩
        · rintro (h | ⟨hck, q', hq', ht⟩)
          · exact Or.inl h
          · rcases List.mem_cons.mp hq' with rfl | hq''
            · exact absurd (ht.symm.trans hq) hck
            · exact Or.inr ⟨hck, q', hq'', ht⟩
      · rw [if_neg hq, accum_mem_keys]
        constructor
        · rintro (⟨h | rfl⟩ | h)
          · exact Or.inl h
          · exact Or.inr ⟨hq, q, List.mem_cons_self q l, rfl⟩
          · exact Or.inr ⟨h.1, h.2.imp (fun q' h' => ⟨List.mem_cons_of_mem _ h'.1, h'.2⟩)⟩
        · rintro (h | ⟨hck, q', hq', ht⟩)
          · exact Or.inl (Or.inl h)
          · rcases List.mem_cons.mp hq' with rfl | hq''
            · exact Or.inl (Or.inr ht.symm)
            · exact Or.inr ⟨hck, q', hq'', ht⟩

end MongooseSpec

namespace MongooseSpec

theorem colFold_keys_nodup (G : Graph) (k : Nat) :
    ∀ (l : List Nat) (col0 : List (Nat × ℚ)),
      (col0.map Prod.fst).Nodup →
      ((l.foldl (colStep G k) col0).map Prod.fst).Nodup := by
  intro l
  induction l with
  | nil => intro col0 h; exact h
  | cons q l ih =>
      intro col0 h
      rw [List.foldl_cons]
      refine ih _ ?_
      unfold colStep
      by_cases hq : colTarget G q = k
      · rw [if_pos hq]; exact h
      · rw [if_neg hq]; exact accum_keys_nodup _ _ _ h

theorem sum_filter_cons (p : Nat → Bool) (g : Nat → ℚ) (q : Nat) (l : List Nat) :
    (((q :: l).filter p).map g).sum =
      (if p q = true then g q else 0) + ((l.filter p).map g).sum := by
  rw [List.filter_cons]
  by_cases h : p q = true
  · rw [if_pos h, if_pos h, List.map_cons, List.sum_cons]
  · rw [if_neg h, if_neg h]
    ring

theorem colFold_assocSum (G : Graph) (k : Nat) :
    ∀ (l : List Nat) (col0 : List (Nat × ℚ)) (c : Nat), c ≠ k →
      assocSum (l.foldl (colStep G k) col0) c =
        assocSum col0 c +
          ((l.filter (fun q => colTarget G q = c)).map
            (fun q => G.x.getD q 0)).sum := by
  intro l
  induction l with
  | nil => intro col0 c _; simp
  | cons q l ih =>
      intro col0 c hck
      rw [List.foldl_cons, ih _ c hck, sum_filter_cons]
      by_cases hq : colTarget G q = c
      · have hqk : ¬ colTarget G q = k := fun hcon => hck (hq ▸ hcon)
        have hstep : colStep G k col0 q =
            accum col0 (colTarget G q) (G.x.getD q 0) := by
          unfold colStep
          rw [if_neg hqk]
        rw [hstep, accum_assocSum, if_pos hq.symm,
          if_pos (decide_eq_true hq)]
        ring
      · rw [if_neg (fun hcon => hq (of_decide_eq_true hcon))]
        by_cases hqk : colTarget G q = k
        · have hstep : colStep G k col0 q = col0 := by
            unfold colStep
            rw [if_pos hqk]
          rw [hstep]
          ring
        · have hstep : colStep G k col0 q =
              accum col0 (colTarget G q) (G.x.getD q 0) := by
            unfold colStep
            rw [if_neg hqk]
          rw [hstep, accum_assocSum, if_neg (fun hcon => hq hcon.symm)]
          ring

/-- The keys of coarse column `k` are exactly the non-`k` targets of the
supernode's fine slots. -/
theorem coarsenColumn_mem_keys (G : Graph) (k : Nat) (c : Nat) :
    c ∈ ((coarsenColumn G k).map Prod.fst) ↔
      c ≠ k ∧ ∃ q ∈ colSlots G k, colTarget G q = c := by
  unfold coarsenColumn
  rw [colFold_mem_keys]
  simp

theorem coarsenColumn_keys_nodup (G : Graph) (k : Nat) :
    ((coarsenColumn G k).map Prod.fst).Nodup := by
  unfold coarsenColumn
  exact colFold_keys_nodup G k _ [] (by simp)

theorem coarsenColumn_assocSum (G : Graph) (k : Nat) (c : Nat) (hck : c ≠ k) :
    assocSum (coarsenColumn G k) c =
      (((colSlots G k).filter (fun q => colTarget G q = c)).map
        (fun q => G.x.getD q 0)).sum := by
  unfold coarsenColumn
  rw [colFold_assocSum G k _ [] c hck, assocSum_nil]
  ring

theorem coarsenColumn_key_ne (G : Graph) (k : Nat) :
    ∀ pr ∈ coarsenColumn G k, pr.1 ≠ k := by
  intro pr hpr
  have hmem : pr.1 ∈ ((coarsenColumn G k).map Prod.fst) :=
    List.mem_map_of_mem Prod.fst hpr
  exact ((coarsenColumn_mem_keys G k pr.1).mp hmem).1

theorem coarsenColumn_value (G : Graph) (k : Nat) :
    ∀ pr ∈ coarsenColumn G k,
      pr.2 = (((colSlots G k).filter (fun q => colTarget G q = pr.1)).map
        (fun q => G.x.getD q 0)).sum := by
  intro pr hpr
  rw [mem_assocSum_of_nodup _ (coarsenColumn_keys_nodup G k) pr hpr,
    coarsenColumn_assocSum G k pr.1 (coarsenColumn_key_ne G k pr hpr)]

/-! ## Decomposing the column slot sums -/

theorem filter_map_sum_flatMap (l : List Nat) (f : Nat → List Nat)
    (P : Nat → Bool) (g : Nat → ℚ) :
    (((l.flatMap f).filter P).map g).sum =
      (l.map (fun u => (((f u).filter P).map g).sum)).sum := by
  induction l with
  | nil => simp
  | cons u l ih =>
      simp only [List.flatMap_cons, List.filter_append, List.map_append,
        List.sum_append, List.map_cons, List.sum_cons, ih]

theorem slot_fiber_sum (G : Graph) (c : Nat) :
    ∀ (l : List Nat), (∀ q ∈ l, G.i.getD q 0 < G.n) →
      ((l.filter (fun q => colTarget G q = c)).map (fun q => G.x.getD q 0)).sum =
        ∑ v ∈ fiber G c,
          ((l.filter (fun q => G.i.getD q 0 = v)).map (fun q => G.x.getD q 0)).sum := by
  intro l
  induction l with
  | nil => simp
  | cons q l ih =>
      intro hl
      have hqn : G.i.getD q 0 < G.n := hl q (List.mem_cons_self q l)
      have hrest := ih (fun r hr => hl r (List.mem_cons_of_mem _ hr))
      have hsplit : ∀ v ∈ fiber G c,
          (((q :: l).filter (fun r => G.i.getD r 0 = v)).map
            (fun r => G.x.getD r 0)).sum =
          (if G.i.getD q 0 = v then G.x.getD q 0 else 0) +
            ((l.filter (fun r => G.i.getD r 0 = v)).map
              (fun r => G.x.getD r 0)).sum := by
        intro v _
        rw [sum_filter_cons]
        by_cases hv : G.i.getD q 0 = v
        · rw [if_pos (decide_eq_true hv), if_pos hv]
        · rw [if_neg (fun hcon => hv (of_decide_eq_true hcon)), if_neg hv]
      rw [Finset.sum_congr rfl hsplit, Finset.sum_add_distrib, ← hrest,
        Finset.sum_ite_eq, sum_filter_cons]
      by_cases hq : colTarget G q = c
      · have hmem : G.i.getD q 0 ∈ fiber G c := by
          unfold fiber
          rw [Finset.mem_filter, Finset.mem_range]
          exact ⟨hqn, of_decide_eq_true (decide_eq_true hq)⟩
        rw [if_pos hmem, if_pos (decide_eq_true hq)]
      · have hmem : G.i.getD q 0 ∉ fiber G c := by
          unfold fiber
          rw [Finset.mem_filter, Finset.mem_range]
          intro hcon
          exact hq hcon.2
        rw [if_neg hmem, if_neg (fun hcon => hq (of_decide_eq_true hcon))]

end MongooseSpec

namespace MongooseSpec

/-! ## Fines and fibers -/

theorem fines_head_mem (G : Graph) (k : Nat) :
    G.invmatchmap.getD k 0 ∈ fines G k := by
  simp only [fines]
  split_ifs <;> simp

theorem fines_toFinset (G : Graph) (hvm : ValidMatching G) (k : Nat)
    (hk : k < G.cn) : (fines G k).toFinset = fiber G k := by
  obtain ⟨h1, h2, h3, h4, h5⟩ := hvm
  obtain ⟨hnd, hlt, hiff⟩ := h5 k hk
  ext v
  rw [List.mem_toFinset]
  unfold fiber
  rw [Finset.mem_filter, Finset.mem_range]
  constructor
  · intro hv
    exact ⟨hlt v hv, (hiff v (hlt v hv)).mp hv⟩
  · intro ⟨hvn, hvk⟩
    exact (hiff v hvn).mpr hvk

theorem list_map_range_sum (f : Nat → ℚ) (n : Nat) :
    ((List.range n).map f).sum = ∑ k ∈ Finset.range n, f k := by
  induction n with
  | zero => simp
  | succ n ih => rw [List.range_succ, List.map_append, List.sum_append,
      Finset.sum_range_succ, ih]; simp

theorem list_sum_getD (l : List ℚ) :
    l.sum = ∑ k ∈ Finset.range l.length, l.getD k 0 := by
  induction l with
  | nil => simp
  | cons a l ih =>
      rw [List.sum_cons, List.length_cons, Finset.sum_range_succ']
      have h0 : (a :: l).getD 0 0 = a := rfl
      have hs : ∀ i, (a :: l).getD (i + 1) 0 = l.getD i 0 := fun i => rfl
      simp only [h0, hs]
      rw [← ih]
      ring

theorem getD_map_range (f : Nat → ℚ) (n k : Nat) (hk : k < n) :
    ((List.range n).map f).getD k 0 = f k := by
  rw [List.getD_eq_getElem?_getD, List.getElem?_map]
  simp [List.getElem?_range hk]

/-- `C.w[k] = Σ G.w[fine]`: the stored coarse node weight is the fiber sum. -/
theorem coarsen_w_getD (G : Graph) (O : Options) (hvm : ValidMatching G)
    (k : Nat) (hk : k < G.cn) :
    (coarsen G O).w.getD k 0 = ∑ v ∈ fiber G k, G.w.getD v 0 := by
  show ((List.range G.cn).map (nodeWeightC G)).getD k 0 = _
  rw [getD_map_range _ _ _ hk]
  unfold nodeWeightC
  rw [← List.sum_toFinset _ (hvm.2.2.2.2 k hk).1,
    fines_toFinset G hvm k hk]

/-- Total vertex weight is preserved by coarsening (exact arithmetic). -/
theorem coarsen_w_sum (G : Graph) (O : Options) (hvm : ValidMatching G)
    (hw : G.w.length = G.n) : (coarsen G O).w.sum = G.w.sum := by
  show ((List.range G.cn).map (nodeWeightC G)).sum = _
  rw [list_map_range_sum]
  have hbody : ∀ k ∈ Finset.range G.cn,
      nodeWeightC G k = ∑ v ∈ fiber G k, G.w.getD v 0 := by
    intro k hk
    rw [Finset.mem_range] at hk
    unfold nodeWeightC
    rw [← List.sum_toFinset _ (hvm.2.2.2.2 k hk).1, fines_toFinset G hvm k hk]
  rw [Finset.sum_congr rfl hbody]
  unfold fiber
  rw [Finset.sum_fiberwise_of_maps_to (fun v hv => by
    rw [Finset.mem_range] at hv ⊢
    exact hvm.2.2.2.1 v hv)]
  rw [list_sum_getD G.w, hw]

/-- C1: for every graph with a completed matching, coarsening preserves the
vertex weights: each coarse vertex weight `C.w[k]` is the sum of the fine
vertex weights of the 1-3 vertices it represents (the `matchmap` fiber of
`k`), and hence the total coarse vertex weight equals the total fine vertex
weight, exactly in the exact-arithmetic (ℚ) embedding. -/
theorem c1_coarsen_weight_invariance (G : Graph) (O : Options)
    (hvm : ValidMatching G) (hw : G.w.length = G.n) :
    (∀ k < G.cn, (coarsen G O).w.getD k 0 = ∑ v ∈ fiber G k, G.w.getD v 0) ∧
    (coarsen G O).w.sum = G.w.sum :=
  ⟨fun k hk => coarsen_w_getD G O hvm k hk, coarsen_w_sum G O hvm hw⟩

/-- C1 witness: the weight-invariance theorem applied to the path graph
0-1-2-3 with the matching `{0,1} {2,3}`. -/
theorem c1_coarsen_weight_invariance_witness :
    ValidMatching pathGraph4 ∧ pathGraph4.w.length = pathGraph4.n ∧
    ((∀ k < pathGraph4.cn, (coarsen pathGraph4 Options.Create).w.getD k 0 =
        ∑ v ∈ fiber pathGraph4 k, pathGraph4.w.getD v 0) ∧
      (coarsen pathGraph4 Options.Create).w.sum = pathGraph4.w.sum) :=
  ⟨by decide, by decide,
    c1_coarsen_weight_invariance pathGraph4 Options.Create (by decide) (by decide)⟩

end MongooseSpec

namespace MongooseSpec

/-! ## Positivity and existence of reverse slots -/

theorem adjW_pos_of_slot (G : Graph) (u q : Nat) (hun : u < G.n)
    (hX : PositiveEdgeWeights G) (hqu : q ∈ slots G u) :
    0 < adjW G u (G.i.getD q 0) := by
  unfold adjW
  apply List.sum_pos
  · intro y hy
    obtain ⟨r, hr, rfl⟩ := List.mem_map.mp hy
    exact hX u hun r (List.mem_of_mem_filter hr)
  · intro hcon
    rw [List.map_eq_nil_iff, List.filter_eq_nil_iff] at hcon
    exact hcon q hqu (by simp)

theorem exists_slot_of_pos_adjW (G : Graph) (v u : Nat)
    (h : 0 < adjW G v u) : ∃ q ∈ slots G v, G.i.getD q 0 = u := by
  by_contra hcon
  push_neg at hcon
  have hnil : (slots G v).filter (fun q => G.i.getD q 0 = u) = [] := by
    rw [List.filter_eq_nil_iff]
    intro q hq
    simp only [decide_eq_true_eq]
    exact hcon q hq
  unfold adjW at h
  rw [hnil] at h
  simp at h

theorem mem_fiber_lt (G : Graph) (c v : Nat) (hv : v ∈ fiber G c) : v < G.n := by
  unfold fiber at hv
  rw [Finset.mem_filter, Finset.mem_range] at hv
  exact hv.1

/-! ## The fiberwise value of a stored coarse edge -/

theorem colSlots_mem (G : Graph) (k q : Nat) :
    q ∈ colSlots G k ↔ ∃ u ∈ fines G k, q ∈ slots G u := by
  unfold colSlots
  exact List.mem_flatMap

theorem coarsenColumn_value_fiber (G : Graph) (hvm : ValidMatching G)
    (hI : NeighborsInRange G) (k : Nat) (hk : k < G.cn) :
    ∀ pr ∈ coarsenColumn G k,
      pr.2 = ∑ u ∈ fiber G k, ∑ v ∈ fiber G pr.1, adjW G u v := by
  intro pr hpr
  rw [coarsenColumn_value G k pr hpr]
  show ((((fines G k).flatMap (slots G)).filter
      (fun q => colTarget G q = pr.1)).map (fun q => G.x.getD q 0)).sum = _
  rw [filter_map_sum_flatMap]
  have hcong : ∀ u ∈ fines G k,
      (((slots G u).filter (fun q => colTarget G q = pr.1)).map
        (fun q => G.x.getD q 0)).sum =
      ∑ v ∈ fiber G pr.1, adjW G u v := by
    intro u hu
    have hun : u < G.n := (hvm.2.2.2.2 k hk).2.1 u hu
    exact slot_fiber_sum G pr.1 (slots G u) (fun q hq => hI u hun q hq)
  rw [List.map_congr_left hcong,
    ← List.sum_toFinset _ (hvm.2.2.2.2 k hk).1, fines_toFinset G hvm k hk]

/-- C2: the coarse adjacency built by `coarsen` stores no self-edges; each
column has pairwise distinct targets, each stored weight being the sum of all
fine edge weights from the supernode of `k` to the supernode of the target
(accumulated into that single entry); and the stored structure is symmetric:
for every stored `(k, c, w)` there is a stored `(c, k, w)`. The columns are
exactly what `coarsen` stores: `C.i`/`C.x` are their concatenation. -/
theorem c2_coarsen_adjacency (G : Graph) (O : Options) (hvm : ValidMatching G)
    (hI : NeighborsInRange G) (hX : PositiveEdgeWeights G)
    (hsym : SymmetricG G) :
    ((coarsen G O).i = (List.range G.cn).flatMap
        (fun k => (coarsenColumn G k).map Prod.fst) ∧
      (coarsen G O).x = (List.range G.cn).flatMap
        (fun k => (coarsenColumn G k).map Prod.snd)) ∧
    (∀ k < G.cn, ((coarsenColumn G k).map Prod.fst).Nodup) ∧
    (∀ k < G.cn, ∀ pr ∈ coarsenColumn G k, pr.1 ≠ k ∧ pr.1 < G.cn) ∧
    (∀ k < G.cn, ∀ pr ∈ coarsenColumn G k,
      pr.2 = ∑ u ∈ fiber G k, ∑ v ∈ fiber G pr.1, adjW G u v) ∧
    (∀ k < G.cn, ∀ pr ∈ coarsenColumn G k,
      (k, pr.2) ∈ coarsenColumn G pr.1) := by
  have hbound : ∀ k, k < G.cn → ∀ pr ∈ coarsenColumn G k, pr.1 ≠ k ∧ pr.1 < G.cn := by
    intro k hk pr hpr
    have hmem := (coarsenColumn_mem_keys G k pr.1).mp
      (List.mem_map_of_mem Prod.fst hpr)
    obtain ⟨hne, q, hq, ht⟩ := hmem
    obtain ⟨u, hu, hqu⟩ := (colSlots_mem G k q).mp hq
    have hun : u < G.n := (hvm.2.2.2.2 k hk).2.1 u hu
    have hiq : G.i.getD q 0 < G.n := hI u hun q hqu
    refine ⟨hne, ?_⟩
    rw [← ht]
    exact hvm.2.2.2.1 (G.i.getD q 0) hiq
  refine ⟨⟨rfl, rfl⟩, fun k _ => coarsenColumn_keys_nodup G k, hbound,
    fun k hk => coarsenColumn_value_fiber G hvm hI k hk, ?_⟩
  intro k hk pr hpr
  obtain ⟨hne, hclt⟩ := hbound k hk pr hpr
  obtain ⟨_, q, hq, ht⟩ := (coarsenColumn_mem_keys G k pr.1).mp
    (List.mem_map_of_mem Prod.fst hpr)
  obtain ⟨u, hu, hqu⟩ := (colSlots_mem G k q).mp hq
  have hun : u < G.n := (hvm.2.2.2.2 k hk).2.1 u hu
  have hiq : G.i.getD q 0 < G.n := hI u hun q hqu
  have hmm_v : G.matchmap.getD (G.i.getD q 0) 0 = pr.1 := ht
  have hmm_u : G.matchmap.getD u 0 = k :=
    ((hvm.2.2.2.2 k hk).2.2 u hun).mp hu
  have hadj_uv : 0 < adjW G u (G.i.getD q 0) :=
    adjW_pos_of_slot G u q hun hX hqu
  have hadj_vu : 0 < adjW G (G.i.getD q 0) u := by
    rw [← hsym u hun (G.i.getD q 0) hiq]
    exact hadj_uv
  obtain ⟨q', hq', hq'u⟩ := exists_slot_of_pos_adjW G (G.i.getD q 0) u hadj_vu
  have hv_fines : G.i.getD q 0 ∈ fines G pr.1 :=
    ((hvm.2.2.2.2 pr.1 hclt).2.2 (G.i.getD q 0) hiq).mpr hmm_v
  have hq'_mem : q' ∈ colSlots G pr.1 :=
    (colSlots_mem G pr.1 q').mpr ⟨G.i.getD q 0, hv_fines, hq'⟩
  have ht' : colTarget G q' = k := by
    unfold colTarget
    rw [hq'u]
    exact hmm_u
  have hkkeys : k ∈ (coarsenColumn G pr.1).map Prod.fst :=
    (coarsenColumn_mem_keys G pr.1 k).mpr
      ⟨fun hcon => hne hcon.symm, q', hq'_mem, ht'⟩
  obtain ⟨pr', hpr', hpr'k⟩ := List.mem_map.mp hkkeys
  have hv1 : pr.2 = ∑ u' ∈ fiber G k, ∑ v' ∈ fiber G pr.1, adjW G u' v' :=
    coarsenColumn_value_fiber G hvm hI k hk pr hpr
  have hv2 : pr'.2 = ∑ u' ∈ fiber G pr.1, ∑ v' ∈ fiber G k, adjW G u' v' := by
    have := coarsenColumn_value_fiber G hvm hI pr.1 hclt pr' hpr'
    rw [hpr'k] at this
    exact this
  have hvals : pr.2 = pr'.2 := by
    rw [hv1, hv2, Finset.sum_comm]
    refine Finset.sum_congr rfl (fun v' hv' => ?_)
    refine Finset.sum_congr rfl (fun u' hu' => ?_)
    exact hsym u' (mem_fiber_lt G k u' hu') v' (mem_fiber_lt G pr.1 v' hv')
  have hpair : (k, pr.2) = pr' := by
    rw [hvals, ← hpr'k]
  rw [hpair]
  exact hpr'

/-- C2 witness: the adjacency theorem applied to the path graph 0-1-2-3 with
the matching `{0,1} {2,3}`. -/
theorem c2_coarsen_adjacency_witness :
    ValidMatching pathGraph4 ∧ NeighborsInRange pathGraph4 ∧
    PositiveEdgeWeights pathGraph4 ∧ SymmetricG pathGraph4 ∧
    (∀ k < pathGraph4.cn, ∀ pr ∈ coarsenColumn pathGraph4 k,
      (k, pr.2) ∈ coarsenColumn pathGraph4 pr.1) :=
  ⟨by decide, by decide, by decide,
    by norm_num [SymmetricG, adjW, slots, pathGraph4, Nat.forall_lt_succ, List.range'],
    (c2_coarsen_adjacency pathGraph4 Options.Create (by decide) (by decide) (by decide)
      (by norm_num [SymmetricG, adjW, slots, pathGraph4, Nat.forall_lt_succ,
        List.range'])).2.2.2.2⟩

end MongooseSpec

namespace MongooseSpec

/-! ## C9: the post-coarsening expensive checks -/

theorem getD_map_range_nat (f : Nat → Nat) (n k : Nat) (hk : k < n) :
    ((List.range n).map f).getD k 0 = f k := by
  rw [List.getD_eq_getElem?_getD, List.getElem?_map]
  simp [List.getElem?_range hk]

/-- The stored coarse column pointers delimit exactly the columns: the
degree the expensive check reads is the column length. -/
theorem coarsen_degree_eq (G : Graph) (O : Options) (k : Nat) (hk : k < G.cn) :
    degree (coarsen G O) k = (coarsenColumn G k).length := by
  unfold degree
  show (((List.range (G.cn + 1)).map
      (fun j => (((List.range j).map (fun i => (coarsenColumn G i).length))).sum)).getD (k+1) 0) -
    (((List.range (G.cn + 1)).map
      (fun j => (((List.range j).map (fun i => (coarsenColumn G i).length))).sum)).getD k 0) = _
  rw [getD_map_range_nat _ _ _ (by omega), getD_map_range_nat _ _ _ (by omega)]
  rw [List.range_succ, List.map_append, List.sum_append]
  simp

/-- C9 counterexample: two unit-weight vertices joined by an edge and
matched into one supernode form a well-formed input (symmetric, connected,
positive weights) with a valid completed matching, on which the coarse graph
has a vertex (its only one) of degree 0: the expensive-check assertion
`assert(degree > 0)` fires. -/
theorem c9_coarsen_assert_counterexample :
    ValidMatching pairGraph ∧ SymmetricG pairGraph ∧
    PositiveEdgeWeights pairGraph ∧ NeighborsInRange pairGraph ∧
    ConnectedG pairGraph ∧ pairGraph.w.sum = pairGraph.W ∧
    0 < (coarsen pairGraph Options.Create).n ∧
    degree (coarsen pairGraph Options.Create) 0 = 0 := by
  refine ⟨by decide, ?_, by decide, by decide, by decide, ?_, by decide, ?_⟩
  · norm_num [SymmetricG, adjW, slots, pairGraph, Nat.forall_lt_succ, List.range']
  · norm_num [pairGraph]
  · rw [coarsen_degree_eq pairGraph Options.Create 0 (by decide)]
    decide


/-- A fiber of a valid matching is nonempty: it holds the head of `fines`. -/
theorem fiber_nonempty (G : Graph) (hvm : ValidMatching G) (k : Nat)
    (hk : k < G.cn) : (fiber G k).Nonempty := by
  have hv0 : G.invmatchmap.getD k 0 ∈ fines G k := fines_head_mem G k
  have hv0n : G.invmatchmap.getD k 0 < G.n := (hvm.2.2.2.2 k hk).2.1 _ hv0
  refine ⟨G.invmatchmap.getD k 0, ?_⟩
  unfold fiber
  rw [Finset.mem_filter, Finset.mem_range]
  exact ⟨hv0n, ((hvm.2.2.2.2 k hk).2.2 _ hv0n).mp hv0⟩

/-- With at least two coarse vertices no fiber is the whole vertex set. -/
theorem fiber_ne_univ (G : Graph) (hvm : ValidMatching G) (hcn : 2 ≤ G.cn)
    (k : Nat) (hk : k < G.cn) : fiber G k ≠ Finset.range G.n := by
  intro hcon
  have hk' : (if k = 0 then 1 else 0) < G.cn := by split_ifs <;> omega
  have hkk' : (if k = 0 then 1 else 0) ≠ k := by
    split_ifs with h
    · omega
    · exact fun hcon' => h hcon'.symm
  obtain ⟨v1, hv1⟩ := fiber_nonempty G hvm (if k = 0 then 1 else 0) hk'
  have hv1' := hv1
  unfold fiber at hv1'
  rw [Finset.mem_filter, Finset.mem_range] at hv1'
  have hv1mem : v1 ∈ fiber G k := by
    rw [hcon]
    exact Finset.mem_range.mpr hv1'.1
  unfold fiber at hv1mem
  rw [Finset.mem_filter] at hv1mem
  rw [hv1mem.2] at hv1'
  exact hkk' hv1'.2.symm

/-- C9 (amended): for a well-formed connected input with a valid completed
matching that does not collapse the whole graph into a single supernode
(`cn ≥ 2`), the post-coarsening expensive checks hold: every coarse vertex
has positive degree, and the recomputed total vertex weight equals the
stored `C.W` exactly (in exact arithmetic). -/
theorem c9_coarsen_checks (G : Graph) (O : Options) (hvm : ValidMatching G)
    (hI : NeighborsInRange G) (hconn : ConnectedG G) (hcn : 2 ≤ G.cn)
    (hw : G.w.length = G.n) (hWs : G.w.sum = G.W) :
    (∀ k < G.cn, 0 < degree (coarsen G O) k) ∧
    (coarsen G O).w.sum = (coarsen G O).W := by
  constructor
  · intro k hk
    rw [coarsen_degree_eq G O k hk]
    obtain ⟨u, huS, q, hq, hout⟩ := hconn (fiber G k)
      (Finset.mem_powerset.mpr (Finset.filter_subset _ _))
      (fiber_nonempty G hvm k hk) (fiber_ne_univ G hvm hcn k hk)
    have huS' := huS
    unfold fiber at huS'
    rw [Finset.mem_filter, Finset.mem_range] at huS'
    have hun : u < G.n := huS'.1
    have hufines : u ∈ fines G k := ((hvm.2.2.2.2 k hk).2.2 u hun).mpr huS'.2
    have hiq : G.i.getD q 0 < G.n := hI u hun q hq
    have htne : colTarget G q ≠ k := by
      intro hcon
      apply hout
      unfold fiber
      rw [Finset.mem_filter, Finset.mem_range]
      exact ⟨hiq, hcon⟩
    have hmemkeys : colTarget G q ∈ (coarsenColumn G k).map Prod.fst :=
      (coarsenColumn_mem_keys G k (colTarget G q)).mpr
        ⟨htne, q, (colSlots_mem G k q).mpr ⟨u, hufines, hq⟩, rfl⟩
    have hne : (coarsenColumn G k).map Prod.fst ≠ [] :=
      List.ne_nil_of_mem hmemkeys
    have : (coarsenColumn G k) ≠ [] := by
      intro hcon
      rw [hcon] at hne
      exact hne rfl
    exact List.length_pos.mpr this
  · show (coarsen G O).w.sum = G.W
    rw [coarsen_w_sum G O hvm hw, hWs]

/-- C9 witness: the amended-check theorem applied to the path graph 0-1-2-3
with the matching `{0,1} {2,3}` (`cn = 2`). -/
theorem c9_coarsen_checks_witness :
    ValidMatching pathGraph4 ∧ NeighborsInRange pathGraph4 ∧
    ConnectedG pathGraph4 ∧ 2 ≤ pathGraph4.cn ∧
    ((∀ k < pathGraph4.cn, 0 < degree (coarsen pathGraph4 Options.Create) k) ∧
      (coarsen pathGraph4 Options.Create).w.sum =
        (coarsen pathGraph4 Options.Create).W) :=
  ⟨by decide, by decide, by decide, by decide,
    c9_coarsen_checks pathGraph4 Options.Create (by decide) (by decide)
      (by decide) (by decide) (by decide) (by norm_num [pathGraph4])⟩

end MongooseSpec

namespace MongooseSpec

/-! ## QPLinks loop lemmas -/

theorem qpBindFold_none (G : Graph) (QP : QPDelta) (l : List Nat) :
    l.foldl (fun ost k => ost.bind (fun st => qpLinksStep G QP st k)) none
      = none := by
  induction l with
  | nil => rfl
  | cons k l ih => rw [List.foldl_cons]; exact ih

theorem qpBindFold_eq_none_iff (G : Graph) (QP : QPDelta) :
    ∀ (l : List Nat) (st : QPLinksState),
      l.foldl (fun ost k => ost.bind (fun st => qpLinksStep G QP st k))
          (some st) = none ↔
        ∃ k ∈ l, QP.x.getD k 0 < 0 ∨ QP.x.getD k 0 > 1 := by
  intro l
  induction l with
  | nil => intro st; simp
  | cons k l ih =>
      intro st
      rw [List.foldl_cons]
      by_cases hbad : QP.x.getD k 0 < 0 ∨ QP.x.getD k 0 > 1
      · have hstep : qpLinksStep G QP st k = none := by
          unfold qpLinksStep
          rw [if_pos hbad]
        rw [show (some st).bind (fun st => qpLinksStep G QP st k) =
          qpLinksStep G QP st k from rfl, hstep, qpBindFold_none]
        constructor
        · intro _
          exact ⟨k, List.mem_cons_self k l, hbad⟩
        · intro _
          rfl
      · have hstep : qpLinksStep G QP st k = some (qpLinksStepOk G QP st k) := by
          unfold qpLinksStep
          rw [if_neg hbad]
        rw [show (some st).bind (fun st => qpLinksStep G QP st k) =
          qpLinksStep G QP st k from rfl, hstep, ih]
        constructor
        · rintro ⟨k', hk', hbad'⟩
          exact ⟨k', List.mem_cons_of_mem _ hk', hbad'⟩
        · rintro ⟨k', hk', hbad'⟩
          rcases List.mem_cons.mp hk' with rfl | hk''
          · exact absurd hbad' hbad
          · exact ⟨k', hk'', hbad'⟩

theorem qpBindFold_some (G : Graph) (QP : QPDelta) :
    ∀ (l : List Nat) (st : QPLinksState),
      (∀ k ∈ l, ¬(QP.x.getD k 0 < 0 ∨ QP.x.getD k 0 > 1)) →
      l.foldl (fun ost k => ost.bind (fun st => qpLinksStep G QP st k))
          (some st) = some (l.foldl (qpLinksStepOk G QP) st) := by
  intro l
  induction l with
  | nil => intro st _; rfl
  | cons k l ih =>
      intro st hgood
      rw [List.foldl_cons, List.foldl_cons]
      have hstep : qpLinksStep G QP st k = some (qpLinksStepOk G QP st k) := by
        unfold qpLinksStep
        rw [if_neg (hgood k (List.mem_cons_self k l))]
      rw [show (some st).bind (fun st => qpLinksStep G QP st k) =
        qpLinksStep G QP st k from rfl, hstep]
      exact ih _ (fun k' hk' => hgood k' (List.mem_cons_of_mem _ hk'))

end MongooseSpec

namespace MongooseSpec

/-! ## The gradient scatter -/

theorem scatterFold_length (G : Graph) (r : ℚ) :
    ∀ (l : List Nat) (g : List ℚ),
      (l.foldl (fun g q => g.set (G.i.getD q 0)
        (g.getD (G.i.getD q 0) 0 + r * G.x.getD q 0)) g).length = g.length := by
  intro l
  induction l with
  | nil => intro g; rfl
  | cons q l ih => intro g; rw [List.foldl_cons, ih, List.length_set]

theorem scatterFold_getD (G : Graph) (r : ℚ) (j : Nat) :
    ∀ (l : List Nat) (g : List ℚ), (∀ q ∈ l, G.i.getD q 0 < g.length) →
      (l.foldl (fun g q => g.set (G.i.getD q 0)
          (g.getD (G.i.getD q 0) 0 + r * G.x.getD q 0)) g).getD j 0 =
        g.getD j 0 + ((l.filter (fun q => G.i.getD q 0 = j)).map
          (fun q => r * G.x.getD q 0)).sum := by
  intro l
  induction l with
  | nil => intro g _; simp
  | cons q l ih =>
      intro g hlen
      rw [List.foldl_cons, sum_filter_cons,
        ih _ (fun q' hq' => by
          rw [List.length_set]
          exact hlen q' (List.mem_cons_of_mem _ hq')),
        getD_set']
      have hq : G.i.getD q 0 < g.length := hlen q (List.mem_cons_self q l)
      by_cases hj : G.i.getD q 0 = j
      · rw [if_pos ⟨hj, hj ▸ hq⟩, if_pos (decide_eq_true hj), hj]
        ring
      · rw [if_neg (fun hcon => hj hcon.1),
          if_neg (fun hcon => hj (of_decide_eq_true hcon))]
        ring

theorem qpScatter_length (G : Graph) (r : ℚ) (k : Nat) (g : List ℚ) :
    (qpScatter G r k g).length = g.length :=
  scatterFold_length G r (slots G k) g

theorem qpScatter_getD (G : Graph) (r : ℚ) (k : Nat) (g : List ℚ) (j : Nat)
    (hlen : ∀ q ∈ slots G k, G.i.getD q 0 < g.length) :
    (qpScatter G r k g).getD j 0 =
      g.getD j 0 + r * adjW G k j := by
  unfold qpScatter adjW
  rw [scatterFold_getD G r j (slots G k) g hlen, List.sum_map_mul_left]

/-! ## The pure QPLinks loop -/

theorem qpPureFold_grad_length (G : Graph) (QP : QPDelta) :
    ∀ (l : List Nat) (st : QPLinksState),
      (l.foldl (qpLinksStepOk G QP) st).grad.length = st.grad.length := by
  intro l
  induction l with
  | nil => intro st; rfl
  | cons k l ih =>
      intro st
      rw [List.foldl_cons, ih]
      exact qpScatter_length G _ k st.grad

theorem qpPureFold_status_length (G : Graph) (QP : QPDelta) :
    ∀ (l : List Nat) (st : QPLinksState),
      (l.foldl (qpLinksStepOk G QP) st).status.length = st.status.length := by
  intro l
  induction l with
  | nil => intro st; rfl
  | cons k l ih =>
      intro st
      rw [List.foldl_cons, ih]
      exact List.length_set _ _ _

theorem qpPureFold_s (G : Graph) (QP : QPDelta) :
    ∀ (l : List Nat) (st : QPLinksState),
      (l.foldl (qpLinksStepOk G QP) st).s =
        st.s + (l.map (fun k => G.w.getD k 0 * QP.x.getD k 0)).sum := by
  intro l
  induction l with
  | nil => intro st; simp
  | cons k l ih =>
      intro st
      rw [List.foldl_cons, ih, List.map_cons, List.sum_cons]
      show st.s + G.w.getD k 0 * QP.x.getD k 0 + _ = _
      ring

theorem qpPureFold_freeList (G : Graph) (QP : QPDelta) :
    ∀ (l : List Nat) (st : QPLinksState),
      (l.foldl (qpLinksStepOk G QP) st).freeList =
        st.freeList ++ l.filter (fun k => 0 < QP.x.getD k 0 ∧ QP.x.getD k 0 < 1) := by
  intro l
  induction l with
  | nil => intro st; simp
  | cons k l ih =>
      intro st
      rw [List.foldl_cons, ih, List.filter_cons]
      simp only [qpLinksStepOk]
      by_cases h1 : QP.x.getD k 0 ≥ 1
      · have hcond : ¬(0 < QP.x.getD k 0 ∧ QP.x.getD k 0 < 1) := by
          intro hcon
          linarith [hcon.2]
        rw [if_neg (fun hcon => hcond (of_decide_eq_true hcon)), if_pos h1]
      · by_cases h2 : QP.x.getD k 0 ≤ 0
        · have hcond : ¬(0 < QP.x.getD k 0 ∧ QP.x.getD k 0 < 1) := by
            intro hcon
            linarith [hcon.1]
          rw [if_neg (fun hcon => hcond (of_decide_eq_true hcon)),
            if_neg h1, if_pos h2]
        · have hcond : 0 < QP.x.getD k 0 ∧ QP.x.getD k 0 < 1 :=
            ⟨lt_of_not_le h2, lt_of_not_le h1⟩
          rw [if_pos (decide_eq_true hcond), if_neg h1, if_neg h2]
          simp

theorem qpPureFold_status_not_mem (G : Graph) (QP : QPDelta) :
    ∀ (l : List Nat) (st : QPLinksState) (v : Nat), v ∉ l →
      (l.foldl (qpLinksStepOk G QP) st).status.getD v 0 = st.status.getD v 0 := by
  intro l
  induction l with
  | nil => intro st v _; rfl
  | cons k l ih =>
      intro st v hv
      rw [List.foldl_cons, ih _ v (fun hcon => hv (List.mem_cons_of_mem _ hcon))]
      show (st.status.set k _).getD v 0 = _
      rw [getD_set']
      have hne : ¬(k = v ∧ v < st.status.length) := by
        intro hcon
        exact hv (List.mem_cons.mpr (Or.inl hcon.1.symm))
      rw [if_neg hne]

theorem qpPureFold_status_mem (G : Graph) (QP : QPDelta) :
    ∀ (l : List Nat) (st : QPLinksState) (v : Nat), v ∈ l →
      v < st.status.length →
      (l.foldl (qpLinksStepOk G QP) st).status.getD v 0 =
        (if QP.x.getD v 0 ≥ 1 then 1 else if QP.x.getD v 0 ≤ 0 then -1 else 0) := by
  intro l
  induction l with
  | nil => intro st v hv; cases hv
  | cons k l ih =>
      intro st v hv hvlen
      rw [List.foldl_cons]
      by_cases hvl : v ∈ l
      · exact ih _ v hvl (by
          show v < (st.status.set k _).length
          rw [List.length_set]
          exact hvlen)
      · have hvk : v = k := by
          rcases List.mem_cons.mp hv with rfl | h
          · rfl
          · exact absurd h hvl
        subst hvk
        rw [qpPureFold_status_not_mem G QP l _ v hvl]
        show (st.status.set v _).getD v 0 = _
        rw [getD_set', if_pos ⟨rfl, hvlen⟩]

theorem qpPureFold_grad (G : Graph) (QP : QPDelta) (j : Nat) :
    ∀ (l : List Nat) (st : QPLinksState),
      (∀ k ∈ l, ∀ q ∈ slots G k, G.i.getD q 0 < st.grad.length) →
      (l.foldl (qpLinksStepOk G QP) st).grad.getD j 0 =
        st.grad.getD j 0 +
          (l.map (fun k => (1/2 - QP.x.getD k 0) * adjW G k j)).sum := by
  intro l
  induction l with
  | nil => intro st _; simp
  | cons k l ih =>
      intro st hlen
      rw [List.foldl_cons, List.map_cons, List.sum_cons,
        ih _ (fun k' hk' q hq => by
          show G.i.getD q 0 < (qpScatter G _ k st.grad).length
          rw [qpScatter_length]
          exact hlen k' (List.mem_cons_of_mem _ hk') q hq)]
      show (qpScatter G (1/2 - QP.x.getD k 0) k st.grad).getD j 0 + _ = _
      rw [qpScatter_getD G _ k st.grad j
        (fun q hq => hlen k (List.mem_cons_self k l) q hq)]
      ring

end MongooseSpec

namespace MongooseSpec

/-- C5: `QPLinks` fails (returns false / `none`) iff some component of the
input iterate lies outside `[0,1]`; with all `x[k] ∈ [0,1]` it succeeds. -/
theorem c5_qplinks_failure_iff (G : Graph) (O : Options) (QP : QPDelta) :
    QPLinks G O QP = none ↔
      ∃ k < G.n, QP.x.getD k 0 < 0 ∨ QP.x.getD k 0 > 1 := by
  constructor
  · intro h
    by_contra hno
    push_neg at hno
    have hgood : ∀ k ∈ List.range G.n,
        ¬(QP.x.getD k 0 < 0 ∨ QP.x.getD k 0 > 1) := by
      intro k hk hbad
      have hb := hno k (List.mem_range.mp hk)
      rcases hbad with hbad | hbad
      · linarith [hb.1]
      · linarith [hb.2]
    have hsome := qpBindFold_some G QP (List.range G.n)
      { grad := (List.range G.n).map
          (fun k => (1/2 - QP.x.getD k 0) * QP.D.getD k 0)
      , s := 0, status := List.replicate G.n 0, freeList := [] } hgood
    simp only [QPLinks] at h
    rw [hsome] at h
    cases h
  · rintro ⟨k, hk, hbad⟩
    have hnone := (qpBindFold_eq_none_iff G QP (List.range G.n)
      { grad := (List.range G.n).map
          (fun k => (1/2 - QP.x.getD k 0) * QP.D.getD k 0)
      , s := 0, status := List.replicate G.n 0, freeList := [] }).mpr
      ⟨k, List.mem_range.mpr hk, hbad⟩
    simp only [QPLinks]
    rw [hnone]

/-- C4: the outputs of a successful `QPLinks` call: the gradient is
`(0.5-x[k])·D[k]` plus the couplings `(0.5-x[j])·w` of every stored edge
`(j,k,w)`; the FreeSet buckets are exactly the vertices at 1, at 0, and
strictly inside, with the free ones listed in order; `b = aᵀx`; and
`ib = -1/0/+1` according to `b ≤ lo`, `lo < b < hi`, `b ≥ hi`. -/
theorem c4_qplinks_success (G : Graph) (O : Options) (QP : QPDelta)
    (r : QPLinksResult) (hI : NeighborsInRange G) (hlohi : QP.lo < QP.hi)
    (hr : QPLinks G O QP = some r) :
    (∀ j < G.n, r.grad.getD j 0 = (1/2 - QP.x.getD j 0) * QP.D.getD j 0 +
        ∑ k ∈ Finset.range G.n, (1/2 - QP.x.getD k 0) * adjW G k j) ∧
    (∀ k < G.n,
      (r.FreeSet_status.getD k 0 = 1 ↔ QP.x.getD k 0 = 1) ∧
      (r.FreeSet_status.getD k 0 = -1 ↔ QP.x.getD k 0 = 0) ∧
      (r.FreeSet_status.getD k 0 = 0 ↔
        (0 < QP.x.getD k 0 ∧ QP.x.getD k 0 < 1))) ∧
    r.FreeSet_list = (List.range G.n).filter
      (fun k => 0 < QP.x.getD k 0 ∧ QP.x.getD k 0 < 1) ∧
    r.nFreeSet = r.FreeSet_list.length ∧
    r.b = ∑ k ∈ Finset.range G.n, G.w.getD k 0 * QP.x.getD k 0 ∧
    ((r.b ≤ QP.lo → r.ib = -1) ∧
      ((QP.lo < r.b ∧ r.b < QP.hi) → r.ib = 0) ∧
      (QP.hi ≤ r.b → r.ib = 1)) := by
  have hgood : ∀ k ∈ List.range G.n,
      ¬(QP.x.getD k 0 < 0 ∨ QP.x.getD k 0 > 1) := by
    intro k hk hbad
    have hnone := (qpBindFold_eq_none_iff G QP (List.range G.n)
      { grad := (List.range G.n).map
          (fun k => (1/2 - QP.x.getD k 0) * QP.D.getD k 0)
      , s := 0, status := List.replicate G.n 0, freeList := [] }).mpr
      ⟨k, hk, hbad⟩
    simp only [QPLinks] at hr
    rw [hnone] at hr
    cases hr
  have hsome := qpBindFold_some G QP (List.range G.n)
    { grad := (List.range G.n).map
        (fun k => (1/2 - QP.x.getD k 0) * QP.D.getD k 0)
    , s := 0, status := List.replicate G.n 0, freeList := [] } hgood
  simp only [QPLinks] at hr
  rw [hsome] at hr
  have hrec := Option.some.inj hr
  subst hrec
  set st0 : QPLinksState :=
    { grad := (List.range G.n).map
        (fun k => (1/2 - QP.x.getD k 0) * QP.D.getD k 0)
    , s := 0, status := List.replicate G.n 0, freeList := [] } with hst0
  set stF := (List.range G.n).foldl (qpLinksStepOk G QP) st0 with hstF
  have hbounds : ∀ k < G.n, 0 ≤ QP.x.getD k 0 ∧ QP.x.getD k 0 ≤ 1 := by
    intro k hk
    have := hgood k (List.mem_range.mpr hk)
    push_neg at this
    exact this
  refine ⟨?_, ?_, ?_, rfl, ?_, ?_⟩
  · intro j hj
    show stF.grad.getD j 0 = _
    rw [hstF, qpPureFold_grad G QP j (List.range G.n) st0
      (fun k hk q hq => by
        show G.i.getD q 0 < st0.grad.length
        rw [hst0]
        show G.i.getD q 0 < ((List.range G.n).map _).length
        rw [List.length_map, List.length_range]
        exact hI k (List.mem_range.mp hk) q hq)]
    rw [list_map_range_sum]
    have hg0 : st0.grad.getD j 0 = (1/2 - QP.x.getD j 0) * QP.D.getD j 0 := by
      rw [hst0]
      show ((List.range G.n).map
        (fun k => (1/2 - QP.x.getD k 0) * QP.D.getD k 0)).getD j 0 = _
      rw [getD_map_range _ _ _ hj]
    rw [hg0]
  · intro k hk
    have hstat : stF.status.getD k 0 =
        (if QP.x.getD k 0 ≥ 1 then 1 else if QP.x.getD k 0 ≤ 0 then -1 else 0) := by
      rw [hstF]
      refine qpPureFold_status_mem G QP (List.range G.n) st0 k
        (List.mem_range.mpr hk) ?_
      rw [hst0]
      show k < (List.replicate G.n (0 : Int)).length
      rw [List.length_replicate]
      exact hk
    show (stF.status.getD k 0 = 1 ↔ _) ∧ (stF.status.getD k 0 = -1 ↔ _) ∧
      (stF.status.getD k 0 = 0 ↔ _)
    rw [hstat]
    obtain ⟨hk0, hk1⟩ := hbounds k hk
    split_ifs with h1 h2
    · refine ⟨⟨fun _ => le_antisymm hk1 h1, fun _ => rfl⟩,
        ⟨fun hcon => absurd hcon (by decide), fun hcon => by linarith⟩,
        ⟨fun hcon => absurd hcon (by decide), fun hcon => by linarith [hcon.2]⟩⟩
    · refine ⟨⟨fun hcon => absurd hcon (by decide), fun hcon => by linarith⟩,
        ⟨fun _ => le_antisymm h2 hk0, fun _ => rfl⟩,
        ⟨fun hcon => absurd hcon (by decide), fun hcon => by linarith [hcon.1]⟩⟩
    · refine ⟨⟨fun hcon => absurd hcon (by decide), fun hcon => by
          rw [hcon] at h1
          exact absurd (le_refl 1) h1⟩,
        ⟨fun hcon => absurd hcon (by decide), fun hcon => by
          rw [hcon] at h2
          exact absurd (le_refl 0) h2⟩,
        ⟨fun _ => ⟨lt_of_not_le h2, lt_of_not_le h1⟩, fun _ => rfl⟩⟩
  · show stF.freeList = _
    rw [hstF, qpPureFold_freeList]
    rw [hst0]
    show ([] : List Nat) ++ _ = _
    rw [List.nil_append]
  · show stF.s = _
    rw [hstF, qpPureFold_s, list_map_range_sum]
    rw [hst0]
    show (0 : ℚ) + _ = _
    ring
  · refine ⟨?_, ?_, ?_⟩
    · intro hle
      show (if stF.s ≤ QP.lo then (-1 : Int) else if stF.s < QP.hi then 0 else 1) = -1
      rw [if_pos hle]
    · intro hmid
      show (if stF.s ≤ QP.lo then (-1 : Int) else if stF.s < QP.hi then 0 else 1) = 0
      rw [if_neg (not_le.mpr hmid.1), if_pos hmid.2]
    · intro hge
      show (if stF.s ≤ QP.lo then (-1 : Int) else if stF.s < QP.hi then 0 else 1) = 1
      rw [if_neg (not_le.mpr (lt_of_lt_of_le hlohi hge)),
        if_neg (not_lt.mpr hge)]

end MongooseSpec

namespace MongooseSpec

/-- C4 witness: the `QPLinks` success theorem applied to the two-vertex graph
with `x = [1/2, 1]`, `D = [2,2]`, `lo = 1`, `hi = 2`. -/
theorem c4_qplinks_success_witness :
    NeighborsInRange pairGraph ∧ qpdPair.lo < qpdPair.hi ∧
    QPLinks pairGraph Options.Create qpdPair =
      some { grad := [-(1/2), -1], FreeSet_status := [0, 1]
           , FreeSet_list := [0], nFreeSet := 1, b := 3/2, ib := 0 } ∧
    ({ grad := [-(1/2), -1], FreeSet_status := [0, 1], FreeSet_list := [0]
     , nFreeSet := 1, b := 3/2, ib := 0 } : QPLinksResult).b =
      ∑ k ∈ Finset.range pairGraph.n,
        pairGraph.w.getD k 0 * qpdPair.x.getD k 0 := by
  have hr : QPLinks pairGraph Options.Create qpdPair =
      some { grad := [-(1/2), -1], FreeSet_status := [0, 1], FreeSet_list := [0]
           , nFreeSet := 1, b := 3/2, ib := 0 } := by
    norm_num [QPLinks, qpLinksStep, qpLinksStepOk, qpScatter, slots, pairGraph,
      qpdPair, List.range_succ, getD_set', List.replicate, List.set]
  refine ⟨by decide, by norm_num [qpdPair], hr, ?_⟩
  exact (c4_qplinks_success pairGraph Options.Create qpdPair _
    (by decide) (by norm_num [qpdPair]) hr).2.2.2.2.1

end MongooseSpec

namespace MongooseSpec

/-! ## Napsack: clip lemmas -/

theorem clip01_of_nonpos (t : ℚ) (h : t ≤ 0) : clip01 t = 0 := by
  unfold clip01
  rw [min_eq_right (le_trans h zero_le_one), max_eq_left h]

theorem clip01_of_one_le (t : ℚ) (h : 1 ≤ t) : clip01 t = 1 := by
  unfold clip01
  rw [min_eq_left h, max_eq_right zero_le_one]

theorem clip01_of_mem (t : ℚ) (h0 : 0 ≤ t) (h1 : t ≤ 1) : clip01 t = t := by
  unfold clip01
  rw [min_eq_right h1, max_eq_right h0]

/-- The per-component affine law on a breakpoint-free interval: when neither
break point of the component lies strictly inside `(b1, b2)`, the clipped
value at any convex combination of `b1` and `b2` is the same combination of
the endpoint values. -/
theorem clip_affine (yk ak b1 b2 th : ℚ) (hak : 0 < ak) (hb : b1 ≤ b2)
    (hth0 : 0 ≤ th) (hth1 : th ≤ 1)
    (htri1 : (yk - 1)/ak ≤ b1 ∨ b2 ≤ (yk - 1)/ak)
    (htri0 : yk/ak ≤ b1 ∨ b2 ≤ yk/ak) :
    clip01 (yk - (b1 + th * (b2 - b1)) * ak) =
      clip01 (yk - b1 * ak) +
        th * (clip01 (yk - b2 * ak) - clip01 (yk - b1 * ak)) := by
  have hlam1 : b1 ≤ b1 + th * (b2 - b1) := by
    nlinarith
  have hlam2 : b1 + th * (b2 - b1) ≤ b2 := by
    nlinarith
  rcases htri0 with h0 | h0
  · -- the component is pinned at 0 throughout [b1, b2]
    have hy : yk ≤ b1 * ak := (div_le_iff hak).mp h0
    have hc1 : clip01 (yk - b1 * ak) = 0 := clip01_of_nonpos _ (by linarith)
    have hc2 : clip01 (yk - b2 * ak) = 0 := clip01_of_nonpos _ (by nlinarith)
    have hcl : clip01 (yk - (b1 + th * (b2 - b1)) * ak) = 0 :=
      clip01_of_nonpos _ (by nlinarith)
    rw [hc1, hc2, hcl]
    ring
  · rcases htri1 with h1 | h1
    · -- the component is free throughout [b1, b2]
      have hy0 : b2 * ak ≤ yk := (le_div_iff hak).mp h0
      have hy1 : yk - 1 ≤ b1 * ak := (div_le_iff hak).mp h1
      have hc1 : clip01 (yk - b1 * ak) = yk - b1 * ak :=
        clip01_of_mem _ (by nlinarith) (by linarith)
      have hc2 : clip01 (yk - b2 * ak) = yk - b2 * ak :=
        clip01_of_mem _ (by linarith) (by nlinarith)
      have hcl : clip01 (yk - (b1 + th * (b2 - b1)) * ak) =
          yk - (b1 + th * (b2 - b1)) * ak :=
        clip01_of_mem _ (by nlinarith) (by nlinarith)
      rw [hc1, hc2, hcl]
      ring
    · -- the component is pinned at 1 throughout [b1, b2]
      have hy : b2 * ak ≤ yk - 1 := (le_div_iff hak).mp h1
      have hc1 : clip01 (yk - b1 * ak) = 1 := clip01_of_one_le _ (by nlinarith)
      have hc2 : clip01 (yk - b2 * ak) = 1 := clip01_of_one_le _ (by linarith)
      have hcl : clip01 (yk - (b1 + th * (b2 - b1)) * ak) = 1 :=
        clip01_of_one_le _ (by nlinarith)
      rw [hc1, hc2, hcl]
      ring

end MongooseSpec

namespace MongooseSpec

/-! ## Napsack: the value function on a breakpoint-free interval -/

theorem napValue_cons (y0 a0 : ℚ) (ys as : List ℚ) (lam : ℚ) :
    napValue (y0 :: ys) (a0 :: as) lam =
      a0 * clip01 (y0 - lam * a0) + napValue ys as lam := by
  unfold napValue
  rw [List.zip_cons_cons, List.map_cons, List.sum_cons]

theorem napValue_affine (b1 b2 th : ℚ) (hb : b1 ≤ b2)
    (hth0 : 0 ≤ th) (hth1 : th ≤ 1) :
    ∀ (y a : List ℚ),
      (∀ pr ∈ y.zip a, 0 < pr.2) →
      (∀ pr ∈ y.zip a,
        ((pr.1 - 1)/pr.2 ≤ b1 ∨ b2 ≤ (pr.1 - 1)/pr.2) ∧
        (pr.1/pr.2 ≤ b1 ∨ b2 ≤ pr.1/pr.2)) →
      napValue y a (b1 + th * (b2 - b1)) =
        napValue y a b1 + th * (napValue y a b2 - napValue y a b1) := by
  intro y
  induction y with
  | nil =>
      intro a _ _
      show (0 : ℚ) = 0 + th * (0 - 0)
      ring
  | cons y0 ys ih =>
      intro a hpos htri
      cases a with
      | nil =>
          show (0 : ℚ) = 0 + th * (0 - 0)
          ring
      | cons a0 as =>
          have hmem : (y0, a0) ∈ (y0 :: ys).zip (a0 :: as) := by
            rw [List.zip_cons_cons]
            exact List.mem_cons_self _ _
          have hpos0 : (0 : ℚ) < a0 := hpos (y0, a0) hmem
          obtain ⟨htri1, htri0⟩ := htri (y0, a0) hmem
          have hterm := clip_affine y0 a0 b1 b2 th hpos0 hb hth0 hth1 htri1 htri0
          have htl := ih as
            (fun pr hpr => hpos pr
              (by rw [List.zip_cons_cons]; exact List.mem_cons_of_mem _ hpr))
            (fun pr hpr => htri pr
              (by rw [List.zip_cons_cons]; exact List.mem_cons_of_mem _ hpr))
          simp only [napValue_cons]
          rw [htl, hterm]
          ring

end MongooseSpec

namespace MongooseSpec

/-! ## Napsack: endpoint values and the dot-product bridge -/

theorem napValue_min (b : ℚ) :
    ∀ (y a : List ℚ), (∀ pr ∈ y.zip a, 0 < pr.2) →
      (∀ pr ∈ y.zip a, b ≤ (pr.1 - 1)/pr.2) →
      napValue y a b = ((y.zip a).map Prod.snd).sum := by
  intro y
  induction y with
  | nil => intro a _ _; rfl
  | cons y0 ys ih =>
      intro a hpos hlow
      cases a with
      | nil => rfl
      | cons a0 as =>
          have hmem : (y0, a0) ∈ (y0 :: ys).zip (a0 :: as) := by
            rw [List.zip_cons_cons]
            exact List.mem_cons_self _ _
          have hpos0 : (0 : ℚ) < a0 := hpos (y0, a0) hmem
          have hb0 : b ≤ (y0 - 1)/a0 := hlow (y0, a0) hmem
          have hval : 1 ≤ y0 - b * a0 := by
            have := (le_div_iff hpos0).mp hb0
            linarith
          rw [napValue_cons, List.zip_cons_cons, List.map_cons, List.sum_cons,
            show y0 - b * a0 = y0 - b * a0 from rfl]
          rw [clip01_of_one_le _ hval,
            ih as
              (fun pr hpr => hpos pr
                (by rw [List.zip_cons_cons]; exact List.mem_cons_of_mem _ hpr))
              (fun pr hpr => hlow pr
                (by rw [List.zip_cons_cons]; exact List.mem_cons_of_mem _ hpr))]
          ring

theorem napValue_max (b : ℚ) :
    ∀ (y a : List ℚ), (∀ pr ∈ y.zip a, 0 < pr.2) →
      (∀ pr ∈ y.zip a, pr.1/pr.2 ≤ b) →
      napValue y a b = 0 := by
  intro y
  induction y with
  | nil => intro a _ _; rfl
  | cons y0 ys ih =>
      intro a hpos hhigh
      cases a with
      | nil => rfl
      | cons a0 as =>
          have hmem : (y0, a0) ∈ (y0 :: ys).zip (a0 :: as) := by
            rw [List.zip_cons_cons]
            exact List.mem_cons_self _ _
          have hpos0 : (0 : ℚ) < a0 := hpos (y0, a0) hmem
          have hb0 : y0/a0 ≤ b := hhigh (y0, a0) hmem
          have hval : y0 - b * a0 ≤ 0 := by
            have := (div_le_iff hpos0).mp hb0
            linarith
          rw [napValue_cons, clip01_of_nonpos _ hval,
            ih as
              (fun pr hpr => hpos pr
                (by rw [List.zip_cons_cons]; exact List.mem_cons_of_mem _ hpr))
              (fun pr hpr => hhigh pr
                (by rw [List.zip_cons_cons]; exact List.mem_cons_of_mem _ hpr))]
          ring

theorem dotQ_napX (lam : ℚ) :
    ∀ (y a : List ℚ), a.length = y.length →
      dotQ a (napX y a lam) = napValue y a lam := by
  intro y
  induction y with
  | nil =>
      intro a hlen
      rw [List.length_nil, List.length_eq_zero] at hlen
      subst hlen
      rfl
  | cons y0 ys ih =>
      intro a hlen
      cases a with
      | nil => cases hlen
      | cons a0 as =>
          rw [List.length_cons, List.length_cons] at hlen
          have hlen' : as.length = ys.length := Nat.succ_injective hlen
          rw [napValue_cons]
          show dotQ (a0 :: as) (clip01 (y0 - lam * a0) :: napX ys as lam) = _
          unfold dotQ
          rw [List.zip_cons_cons, List.map_cons, List.sum_cons]
          have := ih as hlen'
          unfold dotQ at this
          rw [this]

end MongooseSpec

namespace MongooseSpec

/-! ## Napsack: the interval solve and the scan -/

theorem napSolve_eq (y a : List ℚ) (t b1 b2 : ℚ)
    (hpos : ∀ pr ∈ y.zip a, 0 < pr.2)
    (htri : ∀ pr ∈ y.zip a,
      ((pr.1 - 1)/pr.2 ≤ b1 ∨ b2 ≤ (pr.1 - 1)/pr.2) ∧
      (pr.1/pr.2 ≤ b1 ∨ b2 ≤ pr.1/pr.2))
    (hb : b1 ≤ b2) (h1 : t ≤ napValue y a b1) (h2 : napValue y a b2 ≤ t) :
    napValue y a (napSolve y a t b1 b2) = t := by
  unfold napSolve
  by_cases heq : napValue y a b1 = napValue y a b2
  · rw [if_pos heq]
    rw [heq] at h1
    linarith
  · rw [if_neg heq]
    have hlt : napValue y a b2 < napValue y a b1 := by
      rcases lt_or_eq_of_le (le_trans h2 h1) with h | h
      · exact h
      · exact absurd h.symm heq
    have hden : 0 < napValue y a b1 - napValue y a b2 := by linarith
    have hth0 : 0 ≤ (napValue y a b1 - t) / (napValue y a b1 - napValue y a b2) :=
      div_nonneg (by linarith) (by linarith)
    have hth1 : (napValue y a b1 - t) / (napValue y a b1 - napValue y a b2) ≤ 1 := by
      rw [div_le_one hden]
      linarith
    rw [show b1 + (napValue y a b1 - t) / (napValue y a b1 - napValue y a b2) * (b2 - b1)
        = b1 + ((napValue y a b1 - t) / (napValue y a b1 - napValue y a b2)) * (b2 - b1)
      from rfl]
    rw [napValue_affine b1 b2 _ hb hth0 hth1 y a hpos htri]
    field_simp
    ring

theorem sorted_head_le (b : ℚ) (l : List ℚ)
    (hs : List.Sorted (· ≤ ·) (b :: l)) : ∀ c ∈ b :: l, b ≤ c := by
  intro c hc
  rcases List.mem_cons.mp hc with rfl | hc'
  · exact le_refl c
  · exact (List.sorted_cons.mp hs).1 c hc'

theorem sorted_le_getLastD :
    ∀ (l : List ℚ) (b : ℚ), List.Sorted (· ≤ ·) (b :: l) →
      ∀ c ∈ b :: l, c ≤ l.getLastD b := by
  intro l
  induction l with
  | nil =>
      intro b _ c hc
      rcases List.mem_cons.mp hc with rfl | hc'
      · exact le_refl c
      · cases hc'
  | cons b2 rest ih =>
      intro b hs c hc
      have hs2 : List.Sorted (· ≤ ·) (b2 :: rest) := (List.sorted_cons.mp hs).2
      rw [List.getLastD_cons]
      rcases List.mem_cons.mp hc with rfl | hc'
      · exact le_trans ((List.sorted_cons.mp hs).1 b2 (List.mem_cons_self _ _))
          (ih b2 hs2 b2 (List.mem_cons_self _ _))
      · exact ih b2 hs2 c hc'

theorem napScan_eq (y a : List ℚ) (t : ℚ)
    (hpos : ∀ pr ∈ y.zip a, 0 < pr.2) :
    ∀ (l : List ℚ) (b1 : ℚ),
      List.Sorted (· ≤ ·) (b1 :: l) →
      (∀ c ∈ napBps y a, c ≤ b1 ∨ c ∈ b1 :: l) →
      t ≤ napValue y a b1 →
      napValue y a (l.getLastD b1) ≤ t →
      napValue y a (napScan y a t b1 l) = t := by
  intro l
  induction l with
  | nil =>
      intro b1 _ _ h1 h2
      show napValue y a b1 = t
      exact le_antisymm h2 h1
  | cons b2 rest ih =>
      intro b1 hsort hsuf h1 h2
      unfold napScan
      have hb12 : b1 ≤ b2 :=
        (List.sorted_cons.mp hsort).1 b2 (List.mem_cons_self _ _)
      by_cases hcase : napValue y a b2 ≤ t
      · rw [if_pos hcase]
        refine napSolve_eq y a t b1 b2 hpos ?_ hb12 h1 hcase
        intro pr hpr
        have hin1 : (pr.1 - 1)/pr.2 ∈ napBps y a := by
          unfold napBps
          exact List.mem_flatMap.mpr ⟨pr, hpr, by simp⟩
        have hin0 : pr.1/pr.2 ∈ napBps y a := by
          unfold napBps
          exact List.mem_flatMap.mpr ⟨pr, hpr, by simp⟩
        constructor
        · rcases hsuf _ hin1 with h | h
          · exact Or.inl h
          · rcases List.mem_cons.mp h with heq | h'
            · exact Or.inl (le_of_eq heq)
            · refine Or.inr ?_
              exact sorted_head_le b2 rest (List.sorted_cons.mp hsort).2 _ h'
        · rcases hsuf _ hin0 with h | h
          · exact Or.inl h
          · rcases List.mem_cons.mp h with heq | h'
            · exact Or.inl (le_of_eq heq)
            · refine Or.inr ?_
              exact sorted_head_le b2 rest (List.sorted_cons.mp hsort).2 _ h'
      · rw [if_neg hcase]
        refine ih b2 (List.sorted_cons.mp hsort).2 ?_ (le_of_lt (lt_of_not_le hcase)) ?_
        · intro c hc
          rcases hsuf c hc with h | h
          · exact Or.inl (le_trans h hb12)
          · rcases List.mem_cons.mp h with heq | h'
            · exact Or.inl (heq ▸ hb12)
            · exact Or.inr h'
        · rw [List.getLastD_cons] at h2
          exact h2

end MongooseSpec

namespace MongooseSpec

/-- The modelled napsack projector attains its target exactly (in exact
arithmetic) whenever the target lies in `[0, Σa]`. -/
theorem QPnapsack_exact (y a : List ℚ) (t : ℚ)
    (hpos : ∀ pr ∈ y.zip a, 0 < pr.2) (ht0 : 0 ≤ t)
    (htU : t ≤ ((y.zip a).map Prod.snd).sum) :
    napValue y a (QPnapsack y a t) = t := by
  unfold QPnapsack
  cases hsort : List.insertionSort (· ≤ ·) (napBps y a) with
  | nil =>
      have hperm := List.perm_insertionSort (· ≤ ·) (napBps y a)
      rw [hsort] at hperm
      have hbps : napBps y a = [] := (hperm.symm).eq_nil
      have hzip : y.zip a = [] := by
        cases hz : y.zip a with
        | nil => rfl
        | cons pr rest =>
            exfalso
            have hmem : (pr.1 - 1)/pr.2 ∈ napBps y a := by
              unfold napBps
              refine List.mem_flatMap.mpr ⟨pr, ?_, by simp⟩
              rw [hz]
              exact List.mem_cons_self _ _
            rw [hbps] at hmem
            cases hmem
      have hval : napValue y a 0 = 0 := by
        unfold napValue
        rw [hzip]
        rfl
      have ht : t = 0 := by
        rw [hzip] at htU
        have : t ≤ (0 : ℚ) := by simpa using htU
        linarith
      rw [hval, ht]
  | cons b l =>
      have hperm := List.perm_insertionSort (· ≤ ·) (napBps y a)
      rw [hsort] at hperm
      have hsorted : List.Sorted (· ≤ ·) (b :: l) := by
        have hs := List.sorted_insertionSort (· ≤ ·) (napBps y a)
        rw [hsort] at hs
        exact hs
      refine napScan_eq y a t hpos l b hsorted ?_ ?_ ?_
      · intro c hc
        exact Or.inr (hperm.mem_iff.mpr hc)
      · have hlow : ∀ pr ∈ y.zip a, b ≤ (pr.1 - 1)/pr.2 := by
          intro pr hpr
          have hmem : (pr.1 - 1)/pr.2 ∈ napBps y a := by
            unfold napBps
            exact List.mem_flatMap.mpr ⟨pr, hpr, by simp⟩
          exact sorted_head_le b l hsorted _ (hperm.mem_iff.mpr hmem)
        rw [napValue_min b y a hpos hlow]
        exact htU
      · have hhigh : ∀ pr ∈ y.zip a, pr.1/pr.2 ≤ l.getLastD b := by
          intro pr hpr
          have hmem : pr.1/pr.2 ∈ napBps y a := by
            unfold napBps
            exact List.mem_flatMap.mpr ⟨pr, hpr, by simp⟩
          exact sorted_le_getLastD l b hsorted _ (hperm.mem_iff.mpr hmem)
        rw [napValue_max (l.getLastD b) y a hpos hhigh]
        exact ht0

/-- C6: the napsack property. For every input `y`, positive weights `a`,
tolerance `tol ≥ 0` and target `t ∈ [0, Σa]`, the multiplier returned by the
(spec-modelled) `QPNapsack` yields `x = clip(y - λa, 0, 1)` with
`|aᵀx - t| ≤ tol` — in exact arithmetic the scan solves the interval
equation exactly, so `aᵀx = t`. -/
theorem c6_napsack_property (y a : List ℚ) (t tol : ℚ)
    (hlen : a.length = y.length)
    (hpos : ∀ pr ∈ y.zip a, 0 < pr.2)
    (ht0 : 0 ≤ t) (htU : t ≤ a.sum) (htol : 0 ≤ tol) :
    |dotQ a (napX y a (QPnapsack y a t)) - t| ≤ tol := by
  have hsnd : (y.zip a).map Prod.snd = a :=
    List.map_snd_zip y a (le_of_eq hlen)
  have hexact := QPnapsack_exact y a t hpos ht0 (by rw [hsnd]; exact htU)
  rw [dotQ_napX _ y a hlen, hexact]
  simpa using htol

/-- C6 witness: spec Scenario F — `y = [0.8, 0.3, 0.9, 0.1]`,
`a = [1,1,1,1]`, target `t = 2`, tolerance `0.01`. -/
theorem c6_napsack_property_witness :
    ([1, 1, 1, 1] : List ℚ).length = ([4/5, 3/10, 9/10, 1/10] : List ℚ).length ∧
    (∀ pr ∈ ([4/5, 3/10, 9/10, 1/10] : List ℚ).zip ([1, 1, 1, 1] : List ℚ),
      (0 : ℚ) < pr.2) ∧
    ((0 : ℚ) ≤ 2 ∧ (2 : ℚ) ≤ ([1, 1, 1, 1] : List ℚ).sum ∧ (0 : ℚ) ≤ 1/100) ∧
    |dotQ [1, 1, 1, 1] (napX [4/5, 3/10, 9/10, 1/10] [1, 1, 1, 1]
      (QPnapsack [4/5, 3/10, 9/10, 1/10] [1, 1, 1, 1] 2)) - 2| ≤ 1/100 := by
  have hpos : ∀ pr ∈ ([4/5, 3/10, 9/10, 1/10] : List ℚ).zip
      ([1, 1, 1, 1] : List ℚ), (0 : ℚ) < pr.2 := by
    intro pr hpr
    simp only [List.zip_cons_cons, List.zip_nil_left, List.mem_cons] at hpr
    rcases hpr with rfl | rfl | rfl | rfl | h
    · norm_num
    · norm_num
    · norm_num
    · norm_num
    · cases h
  refine ⟨rfl, hpos, ⟨by norm_num, by norm_num, by norm_num⟩, ?_⟩
  exact c6_napsack_property [4/5, 3/10, 9/10, 1/10] [1, 1, 1, 1] 2 (1/100)
    rfl hpos (by norm_num) (by norm_num) (by norm_num)

end MongooseSpec
